import Mathlib

/-!
# Verification of the landlab chi-index and pit-filling components

This file gives a shallow embedding, over exact rationals, of the two
source files of the repository:

* `landlab/components/chi_index/channel_chi.py` (`ChiFinder`), and
* `landlab/components/sink_fill/pit_fill_pf.py` (`PitFiller`),

and proves or refutes the specification claims about them.

Modelling conventions:

* `float` values (elevations, drainage areas, link lengths, chi) are
  modelled by `ℚ`.  The one place where IEEE behaviour is observable in
  the claims — `numpy.mean` of an empty array returning `NaN`, which then
  poisons every product — is modelled explicitly with `Option ℚ`
  (`none` = NaN).
* the float exponentiation `x ** theta` (real base and real exponent) is
  an opaque real function; it is passed to the embedding as a parameter
  `rpow : ℚ → ℚ → ℚ`.  All theorems are universally quantified over it
  (with exactly the positivity facts a claim assumes), and concrete
  witnesses instantiate it at `reftheta = 1`, where `rpow a 1 = a`.
* numpy integer indexing, including its silent wraparound of negative
  indices and its `IndexError` on out-of-range indices, is modelled by
  `resolveIdx` / `npIdx` / `npSet` below (`none` = `IndexError`).
* Python exceptions (`IndexError`, failed `assert`) make an operation
  return `none`; the surrounding grid state is then not written, exactly
  as in the source, where the write-back to the grid happens after the
  loop completes.
-/

namespace Landlab

/-- `landlab.grid.base.BAD_INDEX_VALUE` (the reserved "no link / no
neighbor" sentinel, `numpy.iinfo(numpy.int32).max`). -/
def BAD_INDEX_VALUE : ℤ := 2147483647

/-- `landlab.CLOSED_BOUNDARY` status code. -/
def CLOSED_BOUNDARY : ℕ := 4

/-! ## Small list helpers (numpy-style indexing) -/

/-- Resolve a (possibly negative) numpy index against an array length:
`0 ≤ i < len` is used as is, `-len ≤ i < 0` wraps to `len + i`, anything
else is an `IndexError` (`none`). -/
def resolveIdx (len : ℕ) (i : ℤ) : Option ℕ :=
  if 0 ≤ i ∧ i < (len : ℤ) then some i.toNat
  else if i < 0 ∧ 0 ≤ (len : ℤ) + i then some ((len : ℤ) + i).toNat
  else none

/-- numpy read `l[i]` with wraparound; `none` models `IndexError`. -/
def npIdx {α : Type} (l : List α) (i : ℤ) : Option α :=
  (resolveIdx l.length i).bind (fun k => l.get? k)

/-- numpy write `l[i] = v` with wraparound; `none` models `IndexError`. -/
def npSet {α : Type} (l : List α) (i : ℤ) (v : α) : Option (List α) :=
  (resolveIdx l.length i).map (fun k => l.set k v)

theorem resolveIdx_lt {len : ℕ} {i : ℤ} {k : ℕ} (h : resolveIdx len i = some k) :
    k < len := by
  unfold resolveIdx at h
  split at h
  · rename_i hc
    simp only [Option.some.injEq] at h
    omega
  · split at h
    · rename_i hc hc2
      simp only [Option.some.injEq] at h
      omega
    · exact absurd h (by simp)

theorem npIdx_eq_getD {α : Type} {l : List α} {i : ℤ} {k : ℕ} (d : α)
    (h : resolveIdx l.length i = some k) : npIdx l i = some (l.getD k d) := by
  have hk := resolveIdx_lt h
  simp [npIdx, h, List.getD_eq_getElem?_getD, List.get?_eq_getElem?,
    List.getElem?_eq_getElem hk]

theorem npSet_eq_set {α : Type} {l : List α} {i : ℤ} {k : ℕ} (v : α)
    (h : resolveIdx l.length i = some k) : npSet l i v = some (l.set k v) := by
  simp [npSet, h]

theorem getD_set_self {α : Type} (l : List α) (k : ℕ) (v d : α) (hk : k < l.length) :
    (l.set k v).getD k d = v := by
  induction l generalizing k with
  | nil => simp at hk
  | cons a t ih =>
    cases k with
    | zero => simp [List.set]
    | succ m =>
      simp only [List.set, List.getD_cons_succ]
      exact ih m (by simpa using hk)

theorem getD_set_ne {α : Type} (l : List α) (k j : ℕ) (v d : α) (hkj : k ≠ j) :
    (l.set k v).getD j d = l.getD j d := by
  induction l generalizing k j with
  | nil => simp [List.set]
  | cons a t ih =>
    cases k with
    | zero =>
      cases j with
      | zero => exact absurd rfl hkj
      | succ m => simp [List.set]
    | succ m =>
      cases j with
      | zero => simp [List.set]
      | succ j' =>
        simp only [List.set, List.getD_cons_succ]
        exact ih m j' (by omega)

theorem length_set {α : Type} (l : List α) (k : ℕ) (v : α) :
    (l.set k v).length = l.length := by
  simp

theorem set_getD_self {α : Type} (l : List α) (k : ℕ) (v d : α)
    (hget : l.getD k d = v) (hk : k < l.length) : l.set k v = l := by
  induction l generalizing k with
  | nil => simp at hk
  | cons a t ih =>
    cases k with
    | zero => simp_all [List.set]
    | succ m =>
      simp only [List.getD_cons_succ] at hget
      simp only [List.set]
      rw [ih m hget (by simpa using hk)]

/-! ## The `ChiFinder` component (`channel_chi.py`)

The grid / flow-network collaborator is modelled as the record of the
per-node input fields the component reads.  All per-node arrays have
(in well-formed grids) length `nNodes`; the flow network (receivers,
links-to-receiver, drainage areas, upstream node order) is externally
supplied, exactly as in the source. -/

structure ChiGrid where
  /-- `grid.number_of_nodes` -/
  nNodes : ℕ
  /-- the field `upstream_node_order` -/
  upstreamOrder : List ℕ
  /-- the field `drainage_area` -/
  drainageArea : List ℚ
  /-- the field `flow_receiver` -/
  flowReceiver : List ℕ
  /-- the field `links_to_flow_receiver`; `none` models `BAD_INDEX_VALUE` -/
  linksToReceiver : List (Option ℕ)
  /-- `grid.link_length`, indexed by link id -/
  linkLength : List ℚ
  /-- `grid.status_at_node` -/
  status : List ℕ
  deriving DecidableEq

/-- Parameters of a `calculate_chi` invocation, after the `kwds` /
instantiation-default resolution of the source (so `A0` is the resolved
reference area). -/
structure ChiCfg where
  /-- `reference_concavity` -/
  reftheta : ℚ
  /-- `min_drainage_area` -/
  minDrainage : ℚ
  /-- `reference_area`, already resolved (mean core cell area if unset) -/
  A0 : ℚ
  /-- `use_true_dx` -/
  useTrueDx : Bool
  deriving DecidableEq

/-- The two per-node output arrays of `calculate_chi`.  A chi entry of
`none` models an IEEE `NaN` (see `mean_channel_node_spacing`). -/
structure ChiOutput where
  chi : List (Option ℚ)
  mask : List Bool
  deriving DecidableEq

def areaAt (g : ChiGrid) (v : ℕ) : ℚ := g.drainageArea.getD v 0

def recvAt (g : ChiGrid) (v : ℕ) : ℕ := g.flowReceiver.getD v 0

def linkAt (g : ChiGrid) (v : ℕ) : Option ℕ := g.linksToReceiver.getD v none

def linkLenAt (g : ChiGrid) (l : ℕ) : ℚ := g.linkLength.getD l 0

/-- `valid_upstr_order = upstr_order[drainage_area[upstr_order] >= min_drainage]`:
the subsequence of the upstream (topological) order whose drainage area
meets the threshold, order preserved. -/
def validUpstrOrder (g : ChiGrid) (minDrainage : ℚ) : List ℕ :=
  g.upstreamOrder.filter (fun v => minDrainage ≤ areaAt g v)

/-- The loop of `integrate_chi_avg_dx`:
`for (node, integrand) in izip(valid_upstr_order, chi_integrand):
   chi_array[node] = chi_array[receivers[node]] + integrand`. -/
def chiLoopAvg (g : ChiGrid) : List (ℕ × ℚ) → List ℚ → List ℚ
  | [], chi => chi
  | (v, ig) :: rest, chi =>
      chiLoopAvg g rest (chi.set v (chi.getD (recvAt g v) 0 + ig))

/-- `ChiFinder.integrate_chi_avg_dx` (uniform-spacing mode): run the
accumulation loop, then `chi_array *= mean_dx`. -/
def integrate_chi_avg_dx (g : ChiGrid) (validOrder : List ℕ)
    (chiIntegrand : List ℚ) (chiArray : List ℚ) (meanDx : ℚ) : List ℚ :=
  (chiLoopAvg g (validOrder.zip chiIntegrand) chiArray).map (· * meanDx)

/-- The loop of `integrate_chi_each_dx` (trapezium / exact-spacing mode);
`half` is the precomputed `0.5 * chi_integrand_at_nodes` array.  Nodes
whose link to their receiver is the sentinel are skipped. -/
def chiLoopTrue (g : ChiGrid) (half : List ℚ) : List ℕ → List ℚ → List ℚ
  | [], chi => chi
  | v :: rest, chi =>
      match linkAt g v with
      | none => chiLoopTrue g half rest chi
      | some l =>
          chiLoopTrue g half rest
            (chi.set v (chi.getD (recvAt g v) 0 +
              (half.getD v 0 + half.getD (recvAt g v) 0) * linkLenAt g l))

/-- `ChiFinder.integrate_chi_each_dx`. -/
def integrate_chi_each_dx (g : ChiGrid) (validOrder : List ℕ)
    (chiIntegrandAtNodes : List ℚ) (chiArray : List ℚ) : List ℚ :=
  chiLoopTrue g (chiIntegrandAtNodes.map (fun x => (1/2 : ℚ) * x)) validOrder chiArray

/-- `ChiFinder.mean_channel_node_spacing`: mean of the link lengths of the
non-sentinel links-to-receiver of `ch_nodes`.  `numpy.mean` of an empty
array is `NaN`, modelled as `none`. -/
def mean_channel_node_spacing (g : ChiGrid) (chNodes : List ℕ) : Option ℚ :=
  let chLinksValid := (chNodes.map (linkAt g)).filterMap id
  match chLinksValid with
  | [] => none
  | ls => some ((ls.map (linkLenAt g)).sum / (ls.length : ℚ))

/-- numpy fancy assignment `arr[idxs] = vals` (per-position `set`;
duplicate indices resolve to the last write, as in numpy). -/
def setAtNodes (arr : List ℚ) (idxs : List ℕ) (vals : List ℚ) : List ℚ :=
  (idxs.zip vals).foldl (fun a p => a.set p.1 p.2) arr

/-- Helper for `stampClosed`: walk the chi array with its node index. -/
def stampFrom (g : ChiGrid) : ℕ → List (Option ℚ) → List (Option ℚ)
  | _, [] => []
  | i, x :: rest =>
      (if g.status.getD i 0 = CLOSED_BOUNDARY then some 0 else x) :: stampFrom g (i + 1) rest

/-- `self.chi[self.grid.status_at_node == CLOSED_BOUNDARY] = 0.` -/
def stampClosed (g : ChiGrid) (chi : List (Option ℚ)) : List (Option ℚ) :=
  stampFrom g 0 chi

/-- `mask = ones(bool); ...; self._mask[valid_upstr_order] = False` -/
def maskOf (g : ChiGrid) (validOrder : List ℕ) : List Bool :=
  validOrder.foldl (fun m v => m.set v false) (List.replicate g.nNodes true)

/-- `ChiFinder.calculate_chi`, with parameters already resolved into
`cfg` and the opaque float power `**` passed as `rpow`.  Returns `none`
when the `assert A0 > 0.` fails.  In uniform mode the single scalar mean
spacing may be `NaN` (no valid node has a non-sentinel link); since
`x * NaN = NaN` for every float `x`, the multiplication
`chi_array *= mean_dx` then turns every chi entry into `NaN` (`none`),
after which closed-boundary nodes are stamped back to `0`. -/
def calculate_chi (rpow : ℚ → ℚ → ℚ) (cfg : ChiCfg) (g : ChiGrid) :
    Option ChiOutput :=
  if 0 < cfg.A0 then
    let validOrder := validUpstrOrder g cfg.minDrainage
    let validAreas := validOrder.map (areaAt g)
    let chi0 := List.replicate g.nNodes (0 : ℚ)
    let chiOpt : List (Option ℚ) :=
      if cfg.useTrueDx = false then
        let chiIntegrand := validAreas.map (fun a => rpow (cfg.A0 / a) cfg.reftheta)
        let meanDx := mean_channel_node_spacing g validOrder
        let pre := chiLoopAvg g (validOrder.zip chiIntegrand) chi0
        pre.map (fun x => meanDx.map (fun m => x * m))
      else
        let chiIntegrandAtNodes := setAtNodes (List.replicate g.nNodes 0) validOrder
          (validAreas.map (fun a => rpow (cfg.A0 / a) cfg.reftheta))
        (integrate_chi_each_dx g validOrder chiIntegrandAtNodes chi0).map some
    some ⟨stampClosed g chiOpt, maskOf g validOrder⟩
  else none

/-! ### Generic lemmas about the chi folds -/

theorem getD_map_zero (l : List ℚ) (f : ℚ → ℚ) (v : ℕ) (hf : f 0 = 0) :
    (l.map f).getD v 0 = f (l.getD v 0) := by
  induction l generalizing v with
  | nil => simpa using hf.symm
  | cons a t ih =>
    cases v with
    | zero => simp
    | succ m => simpa using ih m

theorem getD_eq_default_of_le {α : Type} (l : List α) (d : α) (v : ℕ)
    (h : l.length ≤ v) : l.getD v d = d := by
  induction l generalizing v with
  | nil => simp
  | cons a t ih =>
    cases v with
    | zero => simp at h
    | succ m =>
      simp only [List.getD_cons_succ]
      exact ih m (by simpa using h)

theorem getD_replicate_zero (n v : ℕ) : (List.replicate n (0 : ℚ)).getD v 0 = 0 := by
  rcases lt_or_le v n with h | h
  · rw [List.getD_eq_getElem?_getD, List.getElem?_replicate]
    simp [h]
  · exact getD_eq_default_of_le _ _ _ (by simpa using h)

theorem getD_map_of_lt {α β : Type} (l : List α) (f : α → β) (v : ℕ) (d : β)
    (d0 : α) (hv : v < l.length) : (l.map f).getD v d = f (l.getD v d0) := by
  induction l generalizing v with
  | nil => simp at hv
  | cons a t ih =>
    cases v with
    | zero => simp
    | succ m => simpa using ih m (by simpa using hv)

/-- Re-expression of the `izip` loop of `integrate_chi_avg_dx` when the
integrand list is (as in `calculate_chi`) the image of the node list
under a per-node integrand function. -/
def chiLoopNodes (g : ChiGrid) (f : ℕ → ℚ) : List ℕ → List ℚ → List ℚ
  | [], chi => chi
  | v :: rest, chi =>
      chiLoopNodes g f rest (chi.set v (chi.getD (recvAt g v) 0 + f v))

theorem chiLoopAvg_zip_map (g : ChiGrid) (f : ℕ → ℚ) (l : List ℕ) (chi : List ℚ) :
    chiLoopAvg g (l.zip (l.map f)) chi = chiLoopNodes g f l chi := by
  induction l generalizing chi with
  | nil => rfl
  | cons v rest ih =>
    simp only [List.map_cons, List.zip_cons_cons, chiLoopAvg, chiLoopNodes]
    exact ih _

theorem chiLoopNodes_length (g : ChiGrid) (f : ℕ → ℚ) (l : List ℕ) (chi : List ℚ) :
    (chiLoopNodes g f l chi).length = chi.length := by
  induction l generalizing chi with
  | nil => rfl
  | cons v rest ih => simp [chiLoopNodes, ih]

theorem chiLoopNodes_getD_not_mem (g : ChiGrid) (f : ℕ → ℚ) (l : List ℕ)
    (chi : List ℚ) (v : ℕ) (d : ℚ) (hv : v ∉ l) :
    (chiLoopNodes g f l chi).getD v d = chi.getD v d := by
  induction l generalizing chi with
  | nil => rfl
  | cons u rest ih =>
    simp only [List.mem_cons, not_or] at hv
    simp only [chiLoopNodes]
    rw [ih _ hv.2, getD_set_ne _ _ _ _ _ (fun h => hv.1 h.symm)]

/-- Topological consistency of a processing order with respect to the
receiver map: every node occurs once, and its receiver (unless it is the
node itself) does not occur at or after it. -/
def OrderOk (r : ℕ → ℕ) : List ℕ → Prop
  | [] => True
  | v :: rest => v ∉ rest ∧ (r v = v ∨ r v ∉ v :: rest) ∧ OrderOk r rest

theorem chiLoopNodes_char (g : ChiGrid) (f : ℕ → ℚ) (l : List ℕ) (chi : List ℚ)
    (v : ℕ) (hv : v ∈ l) (hord : OrderOk (recvAt g) l)
    (hrv : recvAt g v ≠ v) (hlen : v < chi.length) :
    (chiLoopNodes g f l chi).getD v 0 =
      (chiLoopNodes g f l chi).getD (recvAt g v) 0 + f v := by
  induction l generalizing chi with
  | nil => simp at hv
  | cons u rest ih =>
    obtain ⟨hu, hr, hrest⟩ := hord
    rcases List.mem_cons.mp hv with rfl | hvr
    · have hrnot : recvAt g v ∉ v :: rest := hr.resolve_left hrv
      simp only [List.mem_cons, not_or] at hrnot
      simp only [chiLoopNodes]
      rw [chiLoopNodes_getD_not_mem _ _ _ _ _ _ hu,
        chiLoopNodes_getD_not_mem _ _ _ _ _ _ hrnot.2,
        getD_set_self _ _ _ _ hlen,
        getD_set_ne _ _ _ _ _ (fun h => hrnot.1 h.symm)]
    · simp only [chiLoopNodes]
      exact ih _ hvr hrest (by simpa using hlen)

theorem chiLoopTrue_length (g : ChiGrid) (half : List ℚ) (l : List ℕ) (chi : List ℚ) :
    (chiLoopTrue g half l chi).length = chi.length := by
  induction l generalizing chi with
  | nil => rfl
  | cons v rest ih =>
    simp only [chiLoopTrue]
    cases linkAt g v with
    | none => exact ih chi
    | some lk => simp [ih]

theorem chiLoopTrue_getD_not_mem (g : ChiGrid) (half : List ℚ) (l : List ℕ)
    (chi : List ℚ) (v : ℕ) (d : ℚ) (hv : v ∉ l) :
    (chiLoopTrue g half l chi).getD v d = chi.getD v d := by
  induction l generalizing chi with
  | nil => rfl
  | cons u rest ih =>
    simp only [List.mem_cons, not_or] at hv
    simp only [chiLoopTrue]
    cases linkAt g u with
    | none => exact ih _ hv.2
    | some lk =>
      rw [ih _ hv.2, getD_set_ne _ _ _ _ _ (fun h => hv.1 h.symm)]

theorem chiLoopTrue_getD_sentinel (g : ChiGrid) (half : List ℚ) (l : List ℕ)
    (chi : List ℚ) (v : ℕ) (d : ℚ) (hv : linkAt g v = none) :
    (chiLoopTrue g half l chi).getD v d = chi.getD v d := by
  induction l generalizing chi with
  | nil => rfl
  | cons u rest ih =>
    simp only [chiLoopTrue]
    cases hu : linkAt g u with
    | none => exact ih chi
    | some lk =>
      have huv : u ≠ v := fun h => by rw [h, hv] at hu; exact Option.noConfusion hu
      rw [ih _, getD_set_ne _ _ _ _ _ huv]

theorem chiLoopTrue_char (g : ChiGrid) (half : List ℚ) (l : List ℕ) (chi : List ℚ)
    (v lk : ℕ) (hv : v ∈ l) (hord : OrderOk (recvAt g) l)
    (hrv : recvAt g v ≠ v) (hlen : v < chi.length) (hlink : linkAt g v = some lk) :
    (chiLoopTrue g half l chi).getD v 0 =
      (chiLoopTrue g half l chi).getD (recvAt g v) 0 +
        (half.getD v 0 + half.getD (recvAt g v) 0) * linkLenAt g lk := by
  induction l generalizing chi with
  | nil => simp at hv
  | cons u rest ih =>
    obtain ⟨hu, hr, hrest⟩ := hord
    rcases List.mem_cons.mp hv with rfl | hvr
    · have hrnot : recvAt g v ∉ v :: rest := hr.resolve_left hrv
      simp only [List.mem_cons, not_or] at hrnot
      simp only [chiLoopTrue, hlink]
      rw [chiLoopTrue_getD_not_mem _ _ _ _ _ _ hu,
        chiLoopTrue_getD_not_mem _ _ _ _ _ _ hrnot.2,
        getD_set_self _ _ _ _ hlen,
        getD_set_ne _ _ _ _ _ (fun h => hrnot.1 h.symm)]
    · simp only [chiLoopTrue]
      cases linkAt g u with
      | none => exact ih _ hvr hrest hlen
      | some lk2 => exact ih _ hvr hrest (by simpa using hlen)

theorem setAtNodes_getD_not_mem (arr : List ℚ) (l : List ℕ) (vals : List ℚ)
    (v : ℕ) (d : ℚ) (hv : v ∉ l) :
    (setAtNodes arr l vals).getD v d = arr.getD v d := by
  induction l generalizing arr vals with
  | nil => rfl
  | cons u rest ih =>
    cases vals with
    | nil => rfl
    | cons w ws =>
      simp only [List.mem_cons, not_or] at hv
      simp only [setAtNodes, List.zip_cons_cons, List.foldl_cons]
      rw [show (List.foldl (fun a p => a.set p.1 p.2) (arr.set u w) (rest.zip ws)) =
            setAtNodes (arr.set u w) rest ws from rfl,
        ih _ _ hv.2, getD_set_ne _ _ _ _ _ (fun h => hv.1 h.symm)]

theorem setAtNodes_getD_map (arr : List ℚ) (l : List ℕ) (f : ℕ → ℚ)
    (v : ℕ) (hv : v ∈ l) (hlen : v < arr.length) :
    (setAtNodes arr l (l.map f)).getD v 0 = f v := by
  induction l generalizing arr with
  | nil => simp at hv
  | cons u rest ih =>
    simp only [List.map_cons, setAtNodes, List.zip_cons_cons, List.foldl_cons]
    have hfold : List.foldl (fun a p => a.set p.1 p.2) (arr.set u (f u)) (rest.zip (rest.map f)) =
        setAtNodes (arr.set u (f u)) rest (rest.map f) := rfl
    rw [hfold]
    by_cases hvr : v ∈ rest
    · exact ih _ hvr (by simpa using hlen)
    · have huv : v = u := by
        rcases List.mem_cons.mp hv with h | h
        · exact h
        · exact absurd h hvr
      subst huv
      rw [setAtNodes_getD_not_mem _ _ _ _ _ hvr, getD_set_self _ _ _ _ hlen]

theorem setAtNodes_length (arr : List ℚ) (l : List ℕ) (vals : List ℚ) :
    (setAtNodes arr l vals).length = arr.length := by
  induction l generalizing arr vals with
  | nil => rfl
  | cons u rest ih =>
    cases vals with
    | nil => rfl
    | cons w ws =>
      simp only [setAtNodes, List.zip_cons_cons, List.foldl_cons]
      rw [show (List.foldl (fun a p => a.set p.1 p.2) (arr.set u w) (rest.zip ws)) =
            setAtNodes (arr.set u w) rest ws from rfl, ih]
      simp

theorem stampFrom_length (g : ChiGrid) (i : ℕ) (chi : List (Option ℚ)) :
    (stampFrom g i chi).length = chi.length := by
  induction chi generalizing i with
  | nil => rfl
  | cons x rest ih => simp [stampFrom, ih]

theorem stampFrom_getD (g : ChiGrid) (i : ℕ) (chi : List (Option ℚ)) (v : ℕ)
    (d : Option ℚ) (hv : v < chi.length) :
    (stampFrom g i chi).getD v d =
      if g.status.getD (i + v) 0 = CLOSED_BOUNDARY then some 0 else chi.getD v d := by
  induction chi generalizing i v with
  | nil => simp at hv
  | cons x rest ih =>
    cases v with
    | zero => simp [stampFrom]
    | succ m =>
      simp only [stampFrom, List.getD_cons_succ]
      rw [ih (i + 1) m (by simpa using hv)]
      have : i + 1 + m = i + (m + 1) := by omega
      rw [this]

theorem stampClosed_getD (g : ChiGrid) (chi : List (Option ℚ)) (v : ℕ)
    (d : Option ℚ) (hv : v < chi.length) :
    (stampClosed g chi).getD v d =
      if g.status.getD v 0 = CLOSED_BOUNDARY then some 0 else chi.getD v d := by
  rw [stampClosed, stampFrom_getD g 0 chi v d hv]
  simp

/-- The fold underlying `maskOf`. -/
def maskFold (l : List ℕ) (m : List Bool) : List Bool :=
  l.foldl (fun m v => m.set v false) m

theorem maskOf_eq_maskFold (g : ChiGrid) (l : List ℕ) :
    maskOf g l = maskFold l (List.replicate g.nNodes true) := rfl

theorem maskFold_length (l : List ℕ) (m : List Bool) :
    (maskFold l m).length = m.length := by
  induction l generalizing m with
  | nil => rfl
  | cons u rest ih =>
    simp only [maskFold, List.foldl_cons]
    rw [show List.foldl (fun m v => m.set v false) (m.set u false) rest =
          maskFold rest (m.set u false) from rfl, ih]
    simp

theorem maskFold_getD_not_mem (l : List ℕ) (m : List Bool) (v : ℕ) (d : Bool)
    (hv : v ∉ l) : (maskFold l m).getD v d = m.getD v d := by
  induction l generalizing m with
  | nil => rfl
  | cons u rest ih =>
    simp only [List.mem_cons, not_or] at hv
    simp only [maskFold, List.foldl_cons]
    rw [show List.foldl (fun m v => m.set v false) (m.set u false) rest =
          maskFold rest (m.set u false) from rfl, ih _ hv.2,
      getD_set_ne _ _ _ _ _ (fun h => hv.1 h.symm)]

theorem maskFold_getD_mem (l : List ℕ) (m : List Bool) (v : ℕ) (d : Bool)
    (hv : v ∈ l) (hlen : v < m.length) : (maskFold l m).getD v d = false := by
  induction l generalizing m with
  | nil => simp at hv
  | cons u rest ih =>
    simp only [maskFold, List.foldl_cons]
    rw [show List.foldl (fun m v => m.set v false) (m.set u false) rest =
          maskFold rest (m.set u false) from rfl]
    by_cases hvr : v ∈ rest
    · exact ih _ hvr (by simpa using hlen)
    · have huv : v = u := by
        rcases List.mem_cons.mp hv with h | h
        · exact h
        · exact absurd h hvr
      subst huv
      rw [maskFold_getD_not_mem _ _ _ _ hvr, getD_set_self _ _ _ _ hlen]

theorem getD_replicate_true (n v : ℕ) (hv : v < n) :
    (List.replicate n true).getD v false = true := by
  rw [List.getD_eq_getElem?_getD, List.getElem?_replicate]
  simp [hv]

theorem mem_validUpstrOrder (g : ChiGrid) (minD : ℚ) (v : ℕ) :
    v ∈ validUpstrOrder g minD ↔ v ∈ g.upstreamOrder ∧ minD ≤ areaAt g v := by
  simp [validUpstrOrder, List.mem_filter]

/-! ### Claim C1: the uniform-spacing (`use_true_dx = False`) output -/

/-- Stated from the claim's words, for comparison with the code: "the
average length over all valid nodes' non-sentinel links-to-receiver"
(undefined — `NaN` — when there is no such link). -/
def meanSpacingSpec (g : ChiGrid) (valid : List ℕ) : Option ℚ :=
  match valid.filterMap (fun v => (linkAt g v).map (linkLenAt g)) with
  | [] => none
  | ls => some (ls.sum / (ls.length : ℚ))

/-- Stated from the claim's words, for comparison with the code: "taking
the subsequence of the topological order whose drainage area >=
minDrainageArea (the valid nodes, order preserved), setting
`chi[node] = chi[receiver(node)] + (A0/area(node))^theta` for each valid
node in that order starting from an all-zero array, and finally
multiplying every entry of the chi array by the single scalar mean
spacing". -/
def chiUniformSpec (rpow : ℚ → ℚ → ℚ) (cfg : ChiCfg) (g : ChiGrid) :
    List (Option ℚ) :=
  let valid := validUpstrOrder g cfg.minDrainage
  let pre := chiLoopNodes g (fun v => rpow (cfg.A0 / areaAt g v) cfg.reftheta)
    valid (List.replicate g.nNodes 0)
  pre.map (fun x => (meanSpacingSpec g valid).map (fun m => x * m))

theorem mean_channel_node_spacing_eq_spec (g : ChiGrid) (l : List ℕ) :
    mean_channel_node_spacing g l = meanSpacingSpec g l := by
  unfold mean_channel_node_spacing meanSpacingSpec
  have h1 : (l.map (linkAt g)).filterMap id = l.filterMap (linkAt g) := by
    rw [List.filterMap_map]
    rfl
  have h2 : l.filterMap (fun v => (linkAt g v).map (linkLenAt g)) =
      (l.filterMap (linkAt g)).map (linkLenAt g) := by
    rw [List.map_filterMap]
  rw [h1, h2]
  cases hls : l.filterMap (linkAt g) with
  | nil => simp
  | cons x t => simp

/-- C1 counterexample grid: node 2 is a closed-boundary node whose
drainage area meets the threshold. -/
def gC1 : ChiGrid :=
  { nNodes := 4
    upstreamOrder := [0, 1, 2, 3]
    drainageArea := [2, 2, 1, 0]
    flowReceiver := [0, 0, 1, 3]
    linksToReceiver := [none, some 0, some 1, none]
    linkLength := [1, 1]
    status := [1, 0, 4, 4] }

def cfgC1 : ChiCfg := { reftheta := 1, minDrainage := 1, A0 := 1, useTrueDx := false }

/-- C1, counterexample.  The claim says the output chi of
`calculate_chi` in uniform-spacing mode equals the scaled accumulation
described by the spec sentence, with no further step.  It does not: after
the integration, `calculate_chi` stamps `chi = 0` over every
closed-boundary node, and a closed-boundary node can lie in the valid
subsequence (here node 2, with drainage area `1 ≥ minDrainageArea`, whose
accumulated value `2 * meanSpacing = 2` is replaced by `0`). -/
theorem C1_counterexample :
    (calculate_chi (fun a _ => a) cfgC1 gC1).map ChiOutput.chi ≠
      some (chiUniformSpec (fun a _ => a) cfgC1 gC1) := by
  norm_num [calculate_chi, validUpstrOrder, areaAt, recvAt, linkAt, linkLenAt,
    chiLoopAvg, chiLoopNodes, mean_channel_node_spacing, meanSpacingSpec,
    chiUniformSpec, stampClosed, stampFrom, maskOf, gC1, cfgC1,
    List.filter, List.filterMap, List.replicate, CLOSED_BOUNDARY]

/-- C1, amended.  For every `calculate_chi` invocation in uniform-spacing
mode (`use_true_dx = False`, `A0 > 0`), the output chi equals the result
described by the claim — valid subsequence of the topological order,
`chi[node] = chi[receiver(node)] + (A0/area(node))^theta` accumulated in
that order from zeros, then every entry multiplied by the mean spacing —
followed by forcing `chi = 0` at every closed-boundary node. -/
theorem calculate_chi_uniform_eq_spec (rpow : ℚ → ℚ → ℚ) (cfg : ChiCfg)
    (g : ChiGrid) (hA : 0 < cfg.A0) (hdx : cfg.useTrueDx = false) :
    (calculate_chi rpow cfg g).map ChiOutput.chi =
      some (stampClosed g (chiUniformSpec rpow cfg g)) := by
  unfold calculate_chi
  rw [if_pos hA]
  have hmap : ((validUpstrOrder g cfg.minDrainage).map (areaAt g)).map
      (fun a => rpow (cfg.A0 / a) cfg.reftheta) =
      (validUpstrOrder g cfg.minDrainage).map
        (fun v => rpow (cfg.A0 / areaAt g v) cfg.reftheta) := by
    rw [List.map_map]
    rfl
  simp only [hdx, if_pos, Option.map_some', chiUniformSpec, hmap,
    chiLoopAvg_zip_map, mean_channel_node_spacing_eq_spec]

/-- C1 witness grid (amended theorem): same network as `gC1` but with no
closed-boundary node in the valid subsequence. -/
def gC1w : ChiGrid :=
  { nNodes := 4
    upstreamOrder := [0, 1, 2, 3]
    drainageArea := [2, 2, 1, 0]
    flowReceiver := [0, 0, 1, 3]
    linksToReceiver := [none, some 0, some 1, none]
    linkLength := [1, 1]
    status := [1, 0, 0, 4] }

/-- C1, witness for the amended theorem at a concrete grid. -/
theorem calculate_chi_uniform_eq_spec_witness :
    (calculate_chi (fun a _ => a) cfgC1 gC1w).map ChiOutput.chi =
      some (stampClosed gC1w (chiUniformSpec (fun a _ => a) cfgC1 gC1w)) :=
  calculate_chi_uniform_eq_spec (fun a _ => a) cfgC1 gC1w (by norm_num [cfgC1]) rfl

/-! ### Claim C2: the exact-spacing (`use_true_dx = True`) recurrence -/

/-- The claim's per-node integrand: `(A0/area(node))^theta` at valid
nodes, `0` at all other nodes. -/
def integrandSpec (rpow : ℚ → ℚ → ℚ) (cfg : ChiCfg) (g : ChiGrid) (v : ℕ) : ℚ :=
  if v ∈ validUpstrOrder g cfg.minDrainage
  then rpow (cfg.A0 / areaAt g v) cfg.reftheta else 0

/-- The scattered integrand array built by the `use_true_dx` branch of
`calculate_chi` (`chi_integrand = zeros; chi_integrand[valid] = ...`)
agrees pointwise with the claim's per-node integrand. -/
theorem integrandArr_getD (rpow : ℚ → ℚ → ℚ) (cfg : ChiCfg) (g : ChiGrid)
    (hin : ∀ u ∈ g.upstreamOrder, u < g.nNodes) (v : ℕ) :
    (setAtNodes (List.replicate g.nNodes 0) (validUpstrOrder g cfg.minDrainage)
      (((validUpstrOrder g cfg.minDrainage).map (areaAt g)).map
        (fun a => rpow (cfg.A0 / a) cfg.reftheta))).getD v 0 =
      integrandSpec rpow cfg g v := by
  rw [List.map_map, integrandSpec]
  by_cases hv : v ∈ validUpstrOrder g cfg.minDrainage
  · rw [if_pos hv]
    have hvn : v < g.nNodes :=
      hin v ((mem_validUpstrOrder g _ v).mp hv).1
    exact setAtNodes_getD_map _ _ _ _ hv (by simpa using hvn)
  · rw [if_neg hv, setAtNodes_getD_not_mem _ _ _ _ _ hv, getD_replicate_zero]

/-- C2 (confirmed).  In exact-spacing mode, with the integrand array as
`calculate_chi` builds it, the result of `integrate_chi_each_dx`
satisfies exactly the claim's recurrence for every valid node, provided
the valid subsequence is consistent with the receiver map (each node
once, receivers strictly earlier, self-receivers only behind sentinel
links) and the topological order indexes real nodes: a valid node with a
non-sentinel link to its receiver gets
`chi[node] = chi[receiver] + 0.5*(integrand(node)+integrand(receiver))*linkLength`,
and a valid node with a sentinel link keeps its initial `0`. -/
theorem integrate_chi_each_dx_char (rpow : ℚ → ℚ → ℚ) (cfg : ChiCfg) (g : ChiGrid)
    (hin : ∀ u ∈ g.upstreamOrder, u < g.nNodes)
    (hord : OrderOk (recvAt g) (validUpstrOrder g cfg.minDrainage))
    (hself : ∀ u ∈ validUpstrOrder g cfg.minDrainage,
      linkAt g u ≠ none → recvAt g u ≠ u) :
    ∀ v ∈ validUpstrOrder g cfg.minDrainage,
      (linkAt g v = none →
        (integrate_chi_each_dx g (validUpstrOrder g cfg.minDrainage)
          (setAtNodes (List.replicate g.nNodes 0) (validUpstrOrder g cfg.minDrainage)
            (((validUpstrOrder g cfg.minDrainage).map (areaAt g)).map
              (fun a => rpow (cfg.A0 / a) cfg.reftheta)))
          (List.replicate g.nNodes 0)).getD v 0 = 0) ∧
      (∀ lk, linkAt g v = some lk →
        (integrate_chi_each_dx g (validUpstrOrder g cfg.minDrainage)
          (setAtNodes (List.replicate g.nNodes 0) (validUpstrOrder g cfg.minDrainage)
            (((validUpstrOrder g cfg.minDrainage).map (areaAt g)).map
              (fun a => rpow (cfg.A0 / a) cfg.reftheta)))
          (List.replicate g.nNodes 0)).getD v 0 =
        (integrate_chi_each_dx g (validUpstrOrder g cfg.minDrainage)
          (setAtNodes (List.replicate g.nNodes 0) (validUpstrOrder g cfg.minDrainage)
            (((validUpstrOrder g cfg.minDrainage).map (areaAt g)).map
              (fun a => rpow (cfg.A0 / a) cfg.reftheta)))
          (List.replicate g.nNodes 0)).getD (recvAt g v) 0 +
          (1/2 : ℚ) * (integrandSpec rpow cfg g v +
            integrandSpec rpow cfg g (recvAt g v)) * linkLenAt g lk) := by
  intro v hv
  constructor
  · intro hnone
    rw [integrate_chi_each_dx, chiLoopTrue_getD_sentinel _ _ _ _ _ _ hnone,
      getD_replicate_zero]
  · intro lk hlk
    have hvn : v < g.nNodes := hin v ((mem_validUpstrOrder g _ v).mp hv).1
    have hrv : recvAt g v ≠ v := hself v hv (by rw [hlk]; exact Option.noConfusion)
    rw [integrate_chi_each_dx,
      chiLoopTrue_char g _ _ _ v lk hv hord hrv (by simpa using hvn) hlk]
    have hhalf : ∀ u : ℕ,
        ((setAtNodes (List.replicate g.nNodes 0) (validUpstrOrder g cfg.minDrainage)
          (((validUpstrOrder g cfg.minDrainage).map (areaAt g)).map
            (fun a => rpow (cfg.A0 / a) cfg.reftheta))).map
          (fun x => (1/2 : ℚ) * x)).getD u 0 =
        (1/2 : ℚ) * integrandSpec rpow cfg g u := by
      intro u
      rw [getD_map_zero _ _ _ (by ring), integrandArr_getD rpow cfg g hin]
    rw [hhalf v, hhalf (recvAt g v)]
    ring

/-- C2 witness grid: a three-node channel with distinct areas. -/
def gC2 : ChiGrid :=
  { nNodes := 4
    upstreamOrder := [0, 1, 2, 3]
    drainageArea := [2, 2, 1, 0]
    flowReceiver := [0, 0, 1, 3]
    linksToReceiver := [none, some 0, some 1, none]
    linkLength := [1, 3]
    status := [1, 0, 0, 4] }

def cfgC2 : ChiCfg := { reftheta := 1, minDrainage := 1, A0 := 1, useTrueDx := true }

/-- C2, witness: the recurrence instantiated at node 2 of `gC2`. -/
theorem integrate_chi_each_dx_char_witness :
    (integrate_chi_each_dx gC2 (validUpstrOrder gC2 cfgC2.minDrainage)
      (setAtNodes (List.replicate gC2.nNodes 0) (validUpstrOrder gC2 cfgC2.minDrainage)
        (((validUpstrOrder gC2 cfgC2.minDrainage).map (areaAt gC2)).map
          (fun a => (fun a _ => a) (cfgC2.A0 / a) cfgC2.reftheta)))
      (List.replicate gC2.nNodes 0)).getD 2 0 =
    (integrate_chi_each_dx gC2 (validUpstrOrder gC2 cfgC2.minDrainage)
      (setAtNodes (List.replicate gC2.nNodes 0) (validUpstrOrder gC2 cfgC2.minDrainage)
        (((validUpstrOrder gC2 cfgC2.minDrainage).map (areaAt gC2)).map
          (fun a => (fun a _ => a) (cfgC2.A0 / a) cfgC2.reftheta)))
      (List.replicate gC2.nNodes 0)).getD (recvAt gC2 2) 0 +
      (1/2 : ℚ) * (integrandSpec (fun a _ => a) cfgC2 gC2 2 +
        integrandSpec (fun a _ => a) cfgC2 gC2 (recvAt gC2 2)) * linkLenAt gC2 1 :=
  (integrate_chi_each_dx_char (fun a _ => a) cfgC2 gC2
    (by norm_num [gC2])
    (by norm_num [OrderOk, validUpstrOrder, areaAt, recvAt, gC2, cfgC2, List.filter])
    (by norm_num [validUpstrOrder, areaAt, recvAt, linkAt, gC2, cfgC2, List.filter])
    2
    (by norm_num [validUpstrOrder, areaAt, gC2, cfgC2, List.filter])).2 1 rfl

/-! ### Claim C5: zero valid nodes -/

/-- C5 failing input: a single core node whose drainage area is below
the threshold, so that no node is valid. -/
def gC5 : ChiGrid :=
  { nNodes := 1, upstreamOrder := [0], drainageArea := [1], flowReceiver := [0]
    linksToReceiver := [none], linkLength := [], status := [0] }

def cfgC5 : ChiCfg := { reftheta := 1, minDrainage := 10, A0 := 1, useTrueDx := false }

def cfgC5x : ChiCfg := { reftheta := 1, minDrainage := 10, A0 := 1, useTrueDx := true }

/-- C5 (code bug), evaluation at the failing input.  With zero valid
nodes, uniform-spacing mode takes `numpy.mean` of an empty array of link
lengths, which is `NaN` (here `none`); `chi_array *= mean_dx` then turns
the chi of the single (non-closed) node into `NaN`, not the documented
default `0`.  The call does complete normally (`some`), and the mask is
all-`True` as claimed; in exact-spacing mode the output is the correct
all-zero/all-masked default. -/
theorem C5_zero_valid_nodes_eval :
    validUpstrOrder gC5 cfgC5.minDrainage = [] ∧
    calculate_chi (fun a _ => a) cfgC5 gC5 = some ⟨[none], [true]⟩ ∧
    calculate_chi (fun a _ => a) cfgC5x gC5 = some ⟨[some 0], [true]⟩ := by
  norm_num [calculate_chi, validUpstrOrder, areaAt, recvAt, linkAt, linkLenAt,
    chiLoopAvg, chiLoopTrue, integrate_chi_each_dx, setAtNodes,
    mean_channel_node_spacing, stampClosed, stampFrom, maskOf, gC5, cfgC5, cfgC5x,
    List.filter, List.filterMap, List.replicate, CLOSED_BOUNDARY]

/-! ### Claim C6: threshold exclusion, mask consistency, closed stamp -/

def gC6 : ChiGrid :=
  { nNodes := 1, upstreamOrder := [0], drainageArea := [1], flowReceiver := [0]
    linksToReceiver := [none], linkLength := [], status := [0] }

def cfgC6 : ChiCfg := { reftheta := 1, minDrainage := 10, A0 := 1, useTrueDx := false }

/-- C6, counterexample.  As stated the claim demands `chi = 0` at every
node below the drainage threshold after every invocation; but in
uniform-spacing mode with no valid link the mean spacing is `NaN` and the
below-threshold node 0 ends with chi `NaN` (`none`), not `0`. -/
theorem C6_counterexample :
    areaAt gC6 0 < cfgC6.minDrainage ∧
    (calculate_chi (fun a _ => a) cfgC6 gC6).map (fun o => o.chi.getD 0 none) ≠
      some (some 0) := by
  norm_num [calculate_chi, validUpstrOrder, areaAt, recvAt, linkAt, linkLenAt,
    chiLoopAvg, mean_channel_node_spacing, stampClosed, stampFrom, maskOf, gC6, cfgC6,
    List.filter, List.filterMap, List.replicate, CLOSED_BOUNDARY]
  simp

/-- C6, amended.  After every completed `calculate_chi` invocation in
which the mode is exact-spacing or the uniform-mode mean spacing is
defined (some valid node has a non-sentinel link — otherwise the `NaN`
mean poisons non-closed chi values): every in-range node below the
drainage threshold has `mask = True` and `chi = 0`; `mask = False` iff
the node is in the valid subsequence; and every closed-boundary node has
`chi = 0`. -/
theorem calculate_chi_threshold_mask (rpow : ℚ → ℚ → ℚ) (cfg : ChiCfg)
    (g : ChiGrid) (out : ChiOutput)
    (hout : calculate_chi rpow cfg g = some out)
    (hguard : cfg.useTrueDx = true ∨
      mean_channel_node_spacing g (validUpstrOrder g cfg.minDrainage) ≠ none) :
    ∀ v < g.nNodes,
      (areaAt g v < cfg.minDrainage →
        out.mask.getD v true = true ∧ out.chi.getD v none = some 0) ∧
      (out.mask.getD v true = false ↔ v ∈ validUpstrOrder g cfg.minDrainage) ∧
      (g.status.getD v 0 = CLOSED_BOUNDARY → out.chi.getD v none = some 0) := by
  unfold calculate_chi at hout
  by_cases hA : 0 < cfg.A0
  · rw [if_pos hA] at hout
    set valid := validUpstrOrder g cfg.minDrainage with hvalid
    intro v hvn
    -- the chi array before stamping, in both modes
    set chiOpt : List (Option ℚ) :=
      (if cfg.useTrueDx = false then
        (chiLoopAvg g (valid.zip ((valid.map (areaAt g)).map
            (fun a => rpow (cfg.A0 / a) cfg.reftheta)))
          (List.replicate g.nNodes 0)).map
          (fun x => (mean_channel_node_spacing g valid).map (fun m => x * m))
      else
        (integrate_chi_each_dx g valid
          (setAtNodes (List.replicate g.nNodes 0) valid
            ((valid.map (areaAt g)).map (fun a => rpow (cfg.A0 / a) cfg.reftheta)))
          (List.replicate g.nNodes 0)).map some) with hchiOpt
    have hout2 : out = ⟨stampClosed g chiOpt, maskOf g valid⟩ := by
      rw [hchiOpt]
      exact (Option.some.inj hout).symm
    have hlenOpt : chiOpt.length = g.nNodes := by
      rw [hchiOpt]
      by_cases hdx : cfg.useTrueDx = false
      · rw [if_pos hdx, List.length_map, List.map_map, chiLoopAvg_zip_map,
          chiLoopNodes_length, List.length_replicate]
      · rw [if_neg hdx, List.length_map, integrate_chi_each_dx, chiLoopTrue_length,
          List.length_replicate]
    -- below-threshold and non-valid nodes have chi 0 before stamping
    have hchi0 : ∀ u < g.nNodes, u ∉ valid → chiOpt.getD u none = some 0 := by
      intro u hun humem
      rw [hchiOpt]
      by_cases hdx : cfg.useTrueDx = false
      · rw [if_pos hdx]
        rcases hguard with hg | hg
        · rw [hg] at hdx
          simp at hdx
        · obtain ⟨m, hm⟩ := Option.ne_none_iff_exists'.mp hg
          rw [getD_map_of_lt _ _ _ _ 0
              (by rw [List.map_map, chiLoopAvg_zip_map, chiLoopNodes_length,
                    List.length_replicate]
                  exact hun),
            List.map_map, chiLoopAvg_zip_map,
            chiLoopNodes_getD_not_mem _ _ _ _ _ _ humem,
            getD_replicate_zero, hm]
          simp
      · rw [if_neg hdx,
          getD_map_of_lt _ _ _ _ 0
            (by rw [integrate_chi_each_dx, chiLoopTrue_length, List.length_replicate]
                exact hun),
          integrate_chi_each_dx, chiLoopTrue_getD_not_mem _ _ _ _ _ _ humem,
          getD_replicate_zero]
    refine ⟨?_, ?_, ?_⟩
    · intro harea
      have hnv : v ∉ valid := by
        rw [hvalid, mem_validUpstrOrder]
        rintro ⟨-, hge⟩
        exact absurd harea (not_lt.mpr hge)
      constructor
      · rw [hout2, maskOf_eq_maskFold, maskFold_getD_not_mem _ _ _ _ hnv,
          List.getD_eq_getElem?_getD, List.getElem?_replicate]
        simp [hvn]
      · rw [hout2]
        have := stampClosed_getD g chiOpt v none (by rw [hlenOpt]; exact hvn)
        rw [this]
        by_cases hcl : g.status.getD v 0 = CLOSED_BOUNDARY
        · rw [if_pos hcl]
        · rw [if_neg hcl]
          exact hchi0 v hvn hnv
    · rw [hout2]
      constructor
      · intro hfalse
        by_contra hnv
        rw [maskOf_eq_maskFold, maskFold_getD_not_mem _ _ _ _ hnv,
          List.getD_eq_getElem?_getD, List.getElem?_replicate] at hfalse
        simp [hvn] at hfalse
      · intro hvv
        rw [maskOf_eq_maskFold]
        exact maskFold_getD_mem _ _ _ _ hvv (by simpa using hvn)
    · intro hcl
      rw [hout2]
      have := stampClosed_getD g chiOpt v none (by rw [hlenOpt]; exact hvn)
      rw [this, if_pos hcl]
  · rw [if_neg hA] at hout
    exact absurd hout (by simp)

def gC6w : ChiGrid :=
  { nNodes := 4
    upstreamOrder := [0, 1, 2, 3]
    drainageArea := [2, 2, 1, 0]
    flowReceiver := [0, 0, 1, 3]
    linksToReceiver := [none, some 0, some 1, none]
    linkLength := [1, 1]
    status := [1, 0, 0, 4] }

def cfgC6w : ChiCfg := { reftheta := 1, minDrainage := 1, A0 := 1, useTrueDx := false }

/-- C6, witness for the amended theorem: node 3 of `gC6w` is below the
threshold and closed, so the mask is `True` and chi is `0` there. -/
theorem calculate_chi_threshold_mask_witness :
    (areaAt gC6w 3 < cfgC6w.minDrainage →
      (ChiOutput.mk [some (1/2), some 1, some 2, some 0]
        [false, false, false, true]).mask.getD 3 true = true ∧
      (ChiOutput.mk [some (1/2), some 1, some 2, some 0]
        [false, false, false, true]).chi.getD 3 none = some 0) ∧
    ((ChiOutput.mk [some (1/2), some 1, some 2, some 0]
        [false, false, false, true]).mask.getD 3 true = false ↔
      3 ∈ validUpstrOrder gC6w cfgC6w.minDrainage) ∧
    (gC6w.status.getD 3 0 = CLOSED_BOUNDARY →
      (ChiOutput.mk [some (1/2), some 1, some 2, some 0]
        [false, false, false, true]).chi.getD 3 none = some 0) :=
  calculate_chi_threshold_mask (fun a _ => a) cfgC6w gC6w
    (ChiOutput.mk [some (1/2), some 1, some 2, some 0] [false, false, false, true])
    (by norm_num [calculate_chi, validUpstrOrder, areaAt, recvAt, linkAt, linkLenAt,
      chiLoopAvg, mean_channel_node_spacing, stampClosed, stampFrom, maskOf,
      gC6w, cfgC6w, List.filter, List.filterMap, List.replicate, CLOSED_BOUNDARY])
    (Or.inr (by
      norm_num [mean_channel_node_spacing, validUpstrOrder, areaAt,
        linkAt, linkLenAt, gC6w, cfgC6w, List.filter, List.filterMap]
      simp))
    3 (by norm_num [gC6w])

/-! ### Claim C7: chi is monotone non-decreasing moving upstream -/

theorem linkLenAt_nonneg (g : ChiGrid) (hlen : ∀ x ∈ g.linkLength, 0 ≤ x)
    (l : ℕ) : 0 ≤ linkLenAt g l := by
  unfold linkLenAt
  rcases lt_or_le l g.linkLength.length with h | h
  · rw [List.getD_eq_getElem?_getD, List.getElem?_eq_getElem h]
    exact hlen _ (List.getElem_mem h)
  · rw [getD_eq_default_of_le _ _ _ h]

theorem mean_spacing_nonneg (g : ChiGrid) (l : List ℕ) (m : ℚ)
    (hm : mean_channel_node_spacing g l = some m)
    (hlen : ∀ x ∈ g.linkLength, 0 ≤ x) : 0 ≤ m := by
  unfold mean_channel_node_spacing at hm
  cases hls : (l.map (linkAt g)).filterMap id with
  | nil => rw [hls] at hm; exact absurd hm (by simp)
  | cons x t =>
    rw [hls] at hm
    have hm2 := Option.some.inj hm
    rw [← hm2]
    apply div_nonneg
    · apply List.sum_nonneg
      intro y hy
      obtain ⟨u, -, hu⟩ := List.mem_map.mp hy
      rw [← hu]
      exact linkLenAt_nonneg g hlen u
    · positivity

/-- C7 (confirmed).  Along the flow network, chi as produced by either
integration routine is monotone non-decreasing moving upstream: for
every valid node, its chi is at least the chi of its receiver, given
`A0 > 0`, positive drainage areas at valid nodes, non-negative link
lengths, a non-negative power function on positive arguments, and a
receiver-consistent valid order.  (In exact-spacing mode this is asserted
for nodes whose link to the receiver is non-sentinel, the only ones
assigned there.) -/
theorem chi_monotone_upstream (rpow : ℚ → ℚ → ℚ) (cfg : ChiCfg) (g : ChiGrid)
    (hin : ∀ u ∈ g.upstreamOrder, u < g.nNodes)
    (hord : OrderOk (recvAt g) (validUpstrOrder g cfg.minDrainage))
    (hA : 0 < cfg.A0)
    (harea : ∀ u ∈ validUpstrOrder g cfg.minDrainage, 0 < areaAt g u)
    (hrpow : ∀ x : ℚ, 0 < x → 0 ≤ rpow x cfg.reftheta)
    (hlen : ∀ x ∈ g.linkLength, 0 ≤ x) :
    (∀ m, mean_channel_node_spacing g (validUpstrOrder g cfg.minDrainage) = some m →
      ∀ v ∈ validUpstrOrder g cfg.minDrainage,
        (integrate_chi_avg_dx g (validUpstrOrder g cfg.minDrainage)
          (((validUpstrOrder g cfg.minDrainage).map (areaAt g)).map
            (fun a => rpow (cfg.A0 / a) cfg.reftheta))
          (List.replicate g.nNodes 0) m).getD (recvAt g v) 0 ≤
        (integrate_chi_avg_dx g (validUpstrOrder g cfg.minDrainage)
          (((validUpstrOrder g cfg.minDrainage).map (areaAt g)).map
            (fun a => rpow (cfg.A0 / a) cfg.reftheta))
          (List.replicate g.nNodes 0) m).getD v 0) ∧
    (∀ v ∈ validUpstrOrder g cfg.minDrainage, ∀ lk, linkAt g v = some lk →
        (integrate_chi_each_dx g (validUpstrOrder g cfg.minDrainage)
          (setAtNodes (List.replicate g.nNodes 0) (validUpstrOrder g cfg.minDrainage)
            (((validUpstrOrder g cfg.minDrainage).map (areaAt g)).map
              (fun a => rpow (cfg.A0 / a) cfg.reftheta)))
          (List.replicate g.nNodes 0)).getD (recvAt g v) 0 ≤
        (integrate_chi_each_dx g (validUpstrOrder g cfg.minDrainage)
          (setAtNodes (List.replicate g.nNodes 0) (validUpstrOrder g cfg.minDrainage)
            (((validUpstrOrder g cfg.minDrainage).map (areaAt g)).map
              (fun a => rpow (cfg.A0 / a) cfg.reftheta)))
          (List.replicate g.nNodes 0)).getD v 0) := by
  have hintnn : ∀ u : ℕ, 0 ≤ integrandSpec rpow cfg g u := by
    intro u
    unfold integrandSpec
    by_cases hu : u ∈ validUpstrOrder g cfg.minDrainage
    · rw [if_pos hu]
      exact hrpow _ (div_pos hA (harea u hu))
    · rw [if_neg hu]
  constructor
  · intro m hm v hv
    have hm0 : 0 ≤ m := mean_spacing_nonneg g _ m hm hlen
    unfold integrate_chi_avg_dx
    rw [List.map_map, chiLoopAvg_zip_map]
    rw [getD_map_zero _ _ _ (zero_mul m), getD_map_zero _ _ _ (zero_mul m)]
    apply mul_le_mul_of_nonneg_right _ hm0
    by_cases hrv : recvAt g v = v
    · rw [hrv]
    · have hvn : v < g.nNodes := hin v ((mem_validUpstrOrder g _ v).mp hv).1
      rw [chiLoopNodes_char g _ _ _ v hv hord hrv (by simpa using hvn)]
      have : 0 ≤ ((fun a => rpow (cfg.A0 / a) cfg.reftheta) ∘ areaAt g) v := by
        simp only [Function.comp]
        exact hrpow _ (div_pos hA (harea v hv))
      linarith
  · intro v hv lk hlk
    by_cases hrv : recvAt g v = v
    · rw [hrv]
    · have hvn : v < g.nNodes := hin v ((mem_validUpstrOrder g _ v).mp hv).1
      rw [integrate_chi_each_dx,
        chiLoopTrue_char g _ _ _ v lk hv hord hrv (by simpa using hvn) hlk]
      have hhv : 0 ≤ ((setAtNodes (List.replicate g.nNodes 0)
          (validUpstrOrder g cfg.minDrainage)
          (((validUpstrOrder g cfg.minDrainage).map (areaAt g)).map
            (fun a => rpow (cfg.A0 / a) cfg.reftheta))).map
          (fun x => (1/2 : ℚ) * x)).getD v 0 := by
        rw [getD_map_zero _ _ _ (by ring), integrandArr_getD rpow cfg g hin]
        have := hintnn v
        linarith
      have hhr : 0 ≤ ((setAtNodes (List.replicate g.nNodes 0)
          (validUpstrOrder g cfg.minDrainage)
          (((validUpstrOrder g cfg.minDrainage).map (areaAt g)).map
            (fun a => rpow (cfg.A0 / a) cfg.reftheta))).map
          (fun x => (1/2 : ℚ) * x)).getD (recvAt g v) 0 := by
        rw [getD_map_zero _ _ _ (by ring), integrandArr_getD rpow cfg g hin]
        have := hintnn (recvAt g v)
        linarith
      have hl0 : 0 ≤ linkLenAt g lk := linkLenAt_nonneg g hlen lk
      nlinarith

/-- C7 witness grid and instantiation: on a concrete channel, chi at
node 2 dominates chi at its receiver in both modes. -/
def gC7 : ChiGrid :=
  { nNodes := 4
    upstreamOrder := [0, 1, 2, 3]
    drainageArea := [2, 2, 1, 0]
    flowReceiver := [0, 0, 1, 3]
    linksToReceiver := [none, some 0, some 1, none]
    linkLength := [1, 1]
    status := [1, 0, 0, 4] }

def cfgC7 : ChiCfg := { reftheta := 1, minDrainage := 1, A0 := 1, useTrueDx := false }

/-- C7, witness: the monotonicity theorem applied at `gC7`. -/
theorem chi_monotone_upstream_witness :
    (integrate_chi_avg_dx gC7 (validUpstrOrder gC7 cfgC7.minDrainage)
      (((validUpstrOrder gC7 cfgC7.minDrainage).map (areaAt gC7)).map
        (fun a => (fun a _ => a) (cfgC7.A0 / a) cfgC7.reftheta))
      (List.replicate gC7.nNodes 0) 1).getD (recvAt gC7 2) 0 ≤
    (integrate_chi_avg_dx gC7 (validUpstrOrder gC7 cfgC7.minDrainage)
      (((validUpstrOrder gC7 cfgC7.minDrainage).map (areaAt gC7)).map
        (fun a => (fun a _ => a) (cfgC7.A0 / a) cfgC7.reftheta))
      (List.replicate gC7.nNodes 0) 1).getD 2 0 :=
  (chi_monotone_upstream (fun a _ => a) cfgC7 gC7
    (by norm_num [gC7])
    (by norm_num [OrderOk, validUpstrOrder, areaAt, recvAt, gC7, cfgC7, List.filter])
    (by norm_num [cfgC7])
    (by norm_num [validUpstrOrder, areaAt, gC7, cfgC7, List.filter])
    (fun x hx => le_of_lt hx)
    (by norm_num [gC7])).1 1
    (by norm_num [mean_channel_node_spacing, validUpstrOrder, areaAt, linkAt,
      linkLenAt, gC7, cfgC7, List.filter, List.filterMap])
    2 (by norm_num [validUpstrOrder, areaAt, gC7, cfgC7, List.filter])

/-! ## The `PitFiller` component (`pit_fill_pf.py`)

Priority-flood (Barnes et al. 2014).  The grid collaborator supplies the
elevation field, the node status codes and the fixed-width neighbor /
diagonal tables (entries `BAD_INDEX_VALUE` where absent).  Node ids
inside the traversal are raw `ℤ` values, because the source indexes
numpy arrays with whatever integers the neighbor table contains — and
numpy silently wraps negative in-range indices. -/

structure FillGrid where
  /-- `grid.number_of_nodes` -/
  nNodes : ℕ
  /-- the field `topographic__elevation` -/
  dem : List ℚ
  /-- `grid.status_at_node` -/
  status : List ℕ
  /-- `grid.neighbors_at_node` (one row per node) -/
  neighborRows : List (List ℤ)
  /-- `grid.diagonals_at_node` (one row per node) -/
  diagonalRows : List (List ℤ)
  deriving DecidableEq

/-- The component instance state built by `PitFiller.__init__`: a copy
of the elevation field, the node count, the open-boundary node list
(`status == 1 or status == 2`), and the concatenated neighbor+diagonal
table with `BAD_INDEX_VALUE` replaced by `-1`.  (`__init__` also stores
the list of all boundary nodes, `status != 0`, but `pit_fill` never
reads it, so it is not modelled.) -/
structure PitFiller where
  grid : FillGrid
  demCopy : List ℚ
  nCopy : ℕ
  openBoundary : List ℕ
  neighbors : List (List ℤ)
  deriving DecidableEq

/-- `PitFiller.__init__`. -/
def PitFiller.construct (g : FillGrid) : PitFiller :=
  { grid := g
    demCopy := g.dem
    nCopy := g.nNodes
    openBoundary := (List.range g.status.length).filter
      (fun i => g.status.getD i 0 = 1 ∨ g.status.getD i 0 = 2)
    neighbors := (List.zipWith (· ++ ·) g.neighborRows g.diagonalRows).map
      (List.map (fun e => if e = BAD_INDEX_VALUE then -1 else e)) }

/-- The transient state of one `pit_fill` invocation: the working
elevation copy, the `closed` flags, the plateau FIFO (`raised_node`,
head = next out) and the priority queue (kept sorted, head = minimum,
matching `Queue.PriorityQueue`'s least-tuple-first discipline with
Python's lexicographic tuple comparison). -/
structure FillState where
  dem : List ℚ
  closed : List Bool
  raised : List ℤ
  pq : List (ℚ × ℤ)
  deriving DecidableEq

/-- Python tuple comparison on `(elevation, node)` pairs. -/
def pqLe (a b : ℚ × ℤ) : Prop := a.1 < b.1 ∨ (a.1 = b.1 ∧ a.2 ≤ b.2)

instance (a b : ℚ × ℤ) : Decidable (pqLe a b) := by
  unfold pqLe
  infer_instance

/-- Sorted insertion, modelling a `PriorityQueue.put`. -/
def pqInsert (x : ℚ × ℤ) : List (ℚ × ℤ) → List (ℚ × ℤ)
  | [] => [x]
  | y :: ys => if pqLe x y then x :: y :: ys else y :: pqInsert x ys

/-- One iteration of the seeding loop:
`priority_put((self._dem[i], i)); closed[i] = True`. -/
def seedOne (s : FillState) (i : ℕ) : Option FillState :=
  match s.dem.get? i with
  | none => none
  | some e =>
      match npSet s.closed (i : ℤ) true with
      | none => none
      | some cl => some { s with pq := pqInsert (e, (i : ℤ)) s.pq, closed := cl }

/-- `for i in self._open_boundary: ...` -/
def seedAll : List ℕ → FillState → Option FillState
  | [], s => some s
  | i :: rest, s =>
      match seedOne s i with
      | none => none
      | some s2 => seedAll rest s2

/-- The body of `for neighbor_node in self._neighbors[node]`:
skip the `-1` sentinel and already-closed neighbors; otherwise close the
neighbor and either raise it to the popped node's elevation and put it on
the plateau FIFO, or push `(elevation, neighbor)` on the priority queue. -/
def procNeighbor (node : ℤ) (s : FillState) (e : ℤ) : Option FillState :=
  if e = -1 then some s
  else
    match npIdx s.closed e with
    | none => none
    | some true => some s
    | some false =>
        match npSet s.closed e true with
        | none => none
        | some cl =>
            match npIdx s.dem e, npIdx s.dem node with
            | some dv, some du =>
                if dv ≤ du then
                  match npSet s.dem e du with
                  | none => none
                  | some dem2 =>
                      some { dem := dem2, closed := cl,
                             raised := s.raised ++ [e], pq := s.pq }
                else
                  some { s with closed := cl, pq := pqInsert (dv, e) s.pq }
            | _, _ => none

/-- Process a whole neighbor row. -/
def procRow (node : ℤ) : List ℤ → FillState → Option FillState
  | [], s => some s
  | e :: rest, s =>
      match procNeighbor node s e with
      | none => none
      | some s2 => procRow node rest s2

/-- One iteration of the main `while` loop: pop from the plateau FIFO if
non-empty, else from the priority queue, then process the popped node's
neighbor row.  Only invoked when a queue is non-empty. -/
def fillStep (nbrs : List (List ℤ)) (s : FillState) : Option FillState :=
  match s.raised with
  | v :: rest =>
      match npIdx nbrs v with
      | none => none
      | some row => procRow v row { s with raised := rest }
  | [] =>
      match s.pq with
      | (_, v) :: rest =>
          match npIdx nbrs v with
          | none => none
          | some row => procRow v row { s with pq := rest }
      | [] => none

/-- Outcome of running the loop under a fuel bound: normal completion,
a Python exception (`err`), or fuel exhaustion (`out`; shown below never
to happen for the fuel `pit_fill` supplies). -/
inductive FillRes where
  | ok (s : FillState)
  | err
  | out
  deriving DecidableEq

/-- `while not(raised_empty()) or not(priority_empty()):` -/
def fillLoop (nbrs : List (List ℤ)) : ℕ → FillState → FillRes
  | 0, s => if s.raised = [] ∧ s.pq = [] then .ok s else .out
  | fuel + 1, s =>
      if s.raised = [] ∧ s.pq = [] then .ok s
      else
        match fillStep nbrs s with
        | none => .err
        | some s2 => fillLoop nbrs fuel s2

/-- Termination measure: every iteration strictly decreases it. -/
def fillMeasure (s : FillState) : ℕ :=
  2 * s.closed.count false + s.raised.length + s.pq.length

/-- The run of `pit_fill` up to (but not including) the final write-back:
seed (with `closed = np.zeros(n, bool)` and both queues empty), then
loop to completion. -/
def pit_fill_state (p : PitFiller) : Option FillState :=
  match seedAll p.openBoundary
      { dem := p.demCopy, closed := List.replicate p.nCopy false,
        raised := [], pq := [] } with
  | none => none
  | some s1 =>
      match fillLoop p.neighbors (fillMeasure s1) s1 with
      | .ok s2 => some s2
      | _ => none

/-- `PitFiller.pit_fill`: run the priority flood, then write the working
elevation copy back over the grid's elevation field and return the grid.
`none` models an uncaught Python exception, in which case the grid field
was never written. -/
def pit_fill (p : PitFiller) : Option FillGrid :=
  (pit_fill_state p).map (fun s => { p.grid with dem := s.dem })

/-! ### Anatomy of one neighbor-processing step -/

theorem npIdx_some_elim {α : Type} {l : List α} {i : ℤ} {x : α} (d : α)
    (h : npIdx l i = some x) :
    ∃ k, resolveIdx l.length i = some k ∧ k < l.length ∧ l.getD k d = x := by
  cases hres : resolveIdx l.length i with
  | none =>
    unfold npIdx at h
    rw [hres] at h
    exact absurd h (by simp)
  | some k =>
    refine ⟨k, rfl, resolveIdx_lt hres, ?_⟩
    rw [npIdx_eq_getD d hres] at h
    exact Option.some.inj h

theorem npSet_some_of_resolve {α : Type} {l : List α} {i : ℤ} {k : ℕ} (v : α)
    (h : resolveIdx l.length i = some k) : npSet l i v = some (l.set k v) := by
  simp [npSet, h]

/-- Complete case analysis of `procNeighbor`: either the entry is the
sentinel or already closed (state unchanged), or the neighbor cell is
newly closed and is either raised onto the plateau FIFO or pushed onto
the priority queue. -/
theorem procNeighbor_cases (node : ℤ) (s : FillState) (e : ℤ) (s' : FillState)
    (h : procNeighbor node s e = some s') :
    s' = s ∨
    (e ≠ -1 ∧ ∃ kc kd dv du,
      resolveIdx s.closed.length e = some kc ∧ kc < s.closed.length ∧
      s.closed.getD kc false = false ∧
      resolveIdx s.dem.length e = some kd ∧ kd < s.dem.length ∧
      s.dem.getD kd 0 = dv ∧
      npIdx s.dem node = some du ∧
      ((dv ≤ du ∧
        s' = { dem := s.dem.set kd du, closed := s.closed.set kc true,
               raised := s.raised ++ [e], pq := s.pq }) ∨
       (¬ dv ≤ du ∧
        s' = { s with
               closed := s.closed.set kc true
               pq := pqInsert (dv, e) s.pq }))) := by
  unfold procNeighbor at h
  by_cases he : e = -1
  · rw [if_pos he] at h
    exact Or.inl (Option.some.inj h).symm
  · rw [if_neg he] at h
    cases hc : npIdx s.closed e with
    | none => rw [hc] at h; exact absurd h (by simp)
    | some c =>
      rw [hc] at h
      cases c with
      | true => exact Or.inl (Option.some.inj h).symm
      | false =>
        obtain ⟨kc, hkc, hkclt, hkcval⟩ := npIdx_some_elim false hc
        rw [npSet_some_of_resolve true hkc] at h
        cases hdv : npIdx s.dem e with
        | none => rw [hdv] at h; exact absurd h (by simp)
        | some dv =>
          cases hdu : npIdx s.dem node with
          | none => rw [hdv, hdu] at h; exact absurd h (by simp)
          | some du =>
            rw [hdv, hdu] at h
            dsimp only at h
            obtain ⟨kd, hkd, hkdlt, hkdval⟩ := npIdx_some_elim 0 hdv
            by_cases hle : dv ≤ du
            · rw [if_pos hle, npSet_some_of_resolve du hkd] at h
              exact Or.inr ⟨he, kc, kd, dv, du, hkc, hkclt, hkcval, hkd, hkdlt,
                hkdval, rfl, Or.inl ⟨hle, (Option.some.inj h).symm⟩⟩
            · rw [if_neg hle] at h
              exact Or.inr ⟨he, kc, kd, dv, du, hkc, hkclt, hkcval, hkd, hkdlt,
                hkdval, rfl, Or.inr ⟨hle, (Option.some.inj h).symm⟩⟩

/-! ### Claim C3: the filler only raises elevations -/

/-- Pointwise comparison of elevation arrays. -/
def demLe (d1 d2 : List ℚ) : Prop := ∀ i : ℕ, d1.getD i 0 ≤ d2.getD i 0

theorem demLe_refl (d : List ℚ) : demLe d d := fun _ => le_refl _

theorem demLe_trans {a b c : List ℚ} (h1 : demLe a b) (h2 : demLe b c) :
    demLe a c := fun i => le_trans (h1 i) (h2 i)

theorem procNeighbor_demLe (node : ℤ) (s : FillState) (e : ℤ) (s' : FillState)
    (h : procNeighbor node s e = some s') : demLe s.dem s'.dem := by
  rcases procNeighbor_cases node s e s' h with rfl | ⟨-, kc, kd, dv, du, -, -, -,
    hkd, hkdlt, hkdval, hdu, hcase⟩
  · exact demLe_refl _
  · rcases hcase with ⟨hle, rfl⟩ | ⟨-, rfl⟩
    · intro i
      by_cases hik : i = kd
      · subst hik
        rw [getD_set_self _ _ _ _ hkdlt, hkdval]
        exact hle
      · rw [getD_set_ne _ _ _ _ _ (fun hh => hik hh.symm)]
    · exact demLe_refl _

theorem procRow_demLe (node : ℤ) (row : List ℤ) (s s' : FillState)
    (h : procRow node row s = some s') : demLe s.dem s'.dem := by
  induction row generalizing s with
  | nil =>
    simp only [procRow] at h
    cases Option.some.inj h
    exact demLe_refl _
  | cons e rest ih =>
    simp only [procRow] at h
    cases hp : procNeighbor node s e with
    | none => rw [hp] at h; exact absurd h (by simp)
    | some s2 =>
      rw [hp] at h
      exact demLe_trans (procNeighbor_demLe node s e s2 hp) (ih s2 h)

theorem fillStep_demLe (nbrs : List (List ℤ)) (s s' : FillState)
    (h : fillStep nbrs s = some s') : demLe s.dem s'.dem := by
  unfold fillStep at h
  split at h
  · split at h
    · exact absurd h (by simp)
    · have h2 := procRow_demLe _ _ _ s' h
      exact h2
  · split at h
    · split at h
      · exact absurd h (by simp)
      · have h2 := procRow_demLe _ _ _ s' h
        exact h2
    · exact absurd h (by simp)

theorem fillLoop_demLe (nbrs : List (List ℤ)) (fuel : ℕ) (s s' : FillState)
    (h : fillLoop nbrs fuel s = .ok s') : demLe s.dem s'.dem := by
  induction fuel generalizing s with
  | zero =>
    simp only [fillLoop] at h
    split at h
    · cases FillRes.ok.inj h
      exact demLe_refl _
    · exact absurd h (by simp)
  | succ n ih =>
    simp only [fillLoop] at h
    split at h
    · cases FillRes.ok.inj h
      exact demLe_refl _
    · cases hs : fillStep nbrs s with
      | none => rw [hs] at h; exact absurd h (by simp)
      | some s2 =>
        rw [hs] at h
        exact demLe_trans (fillStep_demLe nbrs s s2 hs) (ih s2 h)

theorem seedOne_dem (s : FillState) (i : ℕ) (s' : FillState)
    (h : seedOne s i = some s') : s'.dem = s.dem := by
  unfold seedOne at h
  cases he : s.dem.get? i with
  | none => rw [he] at h; exact absurd h (by simp)
  | some e =>
    rw [he] at h
    cases hc : npSet s.closed (i : ℤ) true with
    | none => rw [hc] at h; exact absurd h (by simp)
    | some cl =>
      rw [hc] at h
      rw [← Option.some.inj h]

theorem seedAll_dem (l : List ℕ) (s s' : FillState)
    (h : seedAll l s = some s') : s'.dem = s.dem := by
  induction l generalizing s with
  | nil =>
    simp only [seedAll] at h
    rw [← Option.some.inj h]
  | cons i rest ih =>
    simp only [seedAll] at h
    cases hs : seedOne s i with
    | none => rw [hs] at h; exact absurd h (by simp)
    | some s2 =>
      rw [hs] at h
      rw [ih s2 h, seedOne_dem s i s2 hs]

/-- C3 (confirmed).  For every input grid, if `pit_fill` completes then
the output elevation of every node is at least its input elevation: the
filler only ever raises elevations. -/
theorem pit_fill_state_demLe (p : PitFiller) (sfin : FillState)
    (h : pit_fill_state p = some sfin) : demLe p.demCopy sfin.dem := by
  unfold pit_fill_state at h
  split at h
  · exact absurd h (by simp)
  · rename_i s1 hseed
    split at h
    · rename_i s2 hloop
      cases Option.some.inj h
      have hd1 := seedAll_dem _ _ _ hseed
      have hle := fillLoop_demLe _ _ _ _ hloop
      rw [hd1] at hle
      exact hle
    · exact absurd h (by simp)

/-- C3 (confirmed), top-level statement.  For every input grid, if
`pit_fill` completes then the output elevation of every node is at least
its input elevation: the filler only ever raises elevations. -/
theorem pit_fill_monotone (g : FillGrid) (out : FillGrid)
    (h : pit_fill (PitFiller.construct g) = some out) :
    ∀ i : ℕ, g.dem.getD i 0 ≤ out.dem.getD i 0 := by
  unfold pit_fill at h
  cases hst : pit_fill_state (PitFiller.construct g) with
  | none => rw [hst] at h; exact absurd h (by simp)
  | some sfin =>
    rw [hst] at h
    have hout : out = { (PitFiller.construct g).grid with dem := sfin.dem } :=
      (Option.some.inj h).symm
    have hle := pit_fill_state_demLe _ _ hst
    intro i
    rw [hout]
    exact hle i

/-- C3 witness grid: a two-node slope draining to an open boundary, with
an interior pit that gets raised. -/
def gC3 : FillGrid :=
  { nNodes := 3
    dem := [0, 5, 3]
    status := [1, 0, 0]
    neighborRows := [[1, -1], [0, 2], [1, -1]]
    diagonalRows := [[], [], []] }

/-- C3, witness: the monotonicity theorem applied to the concrete run of
`pit_fill` on `gC3` (whose output elevations are `[0, 5, 5]`). -/
theorem pit_fill_monotone_witness :
    gC3.dem.getD 2 0 ≤ ({ gC3 with dem := [0, 5, 5] } : FillGrid).dem.getD 2 0 :=
  pit_fill_monotone gC3 { gC3 with dem := [0, 5, 5] } (by decide) 2

/-! ### Claim C10: `pit_fill` acts on the construction-time snapshot -/

/-- Modification of the grid's elevation field after the component was
constructed (`mg.at_node['topographic__elevation'] = ...`): the grid
object changes but the component's `__init__`-time copy does not. -/
def setGridDem (p : PitFiller) (z : List ℚ) : PitFiller :=
  { p with grid := { p.grid with dem := z } }

/-- C10 (confirmed).  `pit_fill` reads only the elevation snapshot copied
at construction (and the cached node count, open-boundary list and
neighbor table); any elevations written into the grid field between
construction and the call are discarded by the full write-back, so the
result is identical to calling `pit_fill` without the modification. -/
theorem pit_fill_ignores_grid_dem (g : FillGrid) (z : List ℚ) :
    pit_fill (setGridDem (PitFiller.construct g) z) =
      pit_fill (PitFiller.construct g) := rfl

/-! ### Claim C9: dangling neighbor ids -/

/-- C9 failing input: node 0's neighbor row contains the dangling id
`-2`, which is not a node id and not the `-1` sentinel. -/
def gC9 : FillGrid :=
  { nNodes := 3
    dem := [4, 2, 3]
    status := [1, 0, 0]
    neighborRows := [[-2], [], []]
    diagonalRows := [[], [], []] }

/-- C9 (code bug), evaluation at the failing input.  The claim (and the
spec) demand that a dangling neighbor id make the fill fail fast with an
`InvalidGrid` condition.  Instead, numpy's negative-index wraparound
makes the run treat the dangling `-2` as node `n - 2 = 1`: the call
completes normally and silently raises node 1's elevation from `2` to
`4` through the dangling reference. -/
theorem C9_dangling_id_eval :
    (-2 : ℤ) ∈ (PitFiller.construct gC9).neighbors.getD 0 [] ∧
    (-2 : ℤ) ≠ -1 ∧
    ¬ (0 ≤ (-2 : ℤ) ∧ (-2 : ℤ) < (gC9.nNodes : ℤ)) ∧
    pit_fill (PitFiller.construct gC9) = some { gC9 with dem := [4, 4, 3] } := by
  decide

/-! ### Structural facts shared by the no-pit and idempotence proofs -/

/-- Cell `k` is marked closed (visited) in state `s`. -/
def closedAt (s : FillState) (k : ℕ) : Prop := s.closed.getD k false = true

instance (s : FillState) (k : ℕ) : Decidable (closedAt s k) := by
  unfold closedAt
  infer_instance

/-- Per-step bookkeeping: array lengths are preserved, the closed set
only grows, and the elevation of an already-closed cell never changes
(when the two per-node arrays have the same length, as they do for
well-formed grids). -/
def StepOk (s s' : FillState) : Prop :=
  s'.dem.length = s.dem.length ∧ s'.closed.length = s.closed.length ∧
  (∀ k, closedAt s k → closedAt s' k) ∧
  (s.dem.length = s.closed.length →
    ∀ k, closedAt s k → s'.dem.getD k 0 = s.dem.getD k 0)

theorem StepOk.refl (s : FillState) : StepOk s s :=
  ⟨rfl, rfl, fun _ h => h, fun _ _ _ => rfl⟩

theorem StepOk.trans {a b c : FillState} (h1 : StepOk a b) (h2 : StepOk b c) :
    StepOk a c := by
  obtain ⟨hd1, hc1, hm1, hf1⟩ := h1
  obtain ⟨hd2, hc2, hm2, hf2⟩ := h2
  refine ⟨hd2.trans hd1, hc2.trans hc1, fun k hk => hm2 k (hm1 k hk), ?_⟩
  intro hlen k hk
  rw [hf2 (by rw [hd1, hc1]; exact hlen) k (hm1 k hk), hf1 hlen k hk]

theorem closedAt_set_true (cl : List Bool) (kc k : ℕ) (hk : closedAt ⟨[], cl, [], []⟩ k) :
    (cl.set kc true).getD k false = true := by
  by_cases hkk : k = kc
  · subst hkk
    by_cases hlt : k < cl.length
    · rw [getD_set_self _ _ _ _ hlt]
    · unfold closedAt at hk
      rw [getD_eq_default_of_le _ _ _ (le_of_not_lt hlt)] at hk
      exact absurd hk (by simp)
  · rw [getD_set_ne _ _ _ _ _ (fun hh => hkk hh.symm)]
    exact hk

theorem procNeighbor_StepOk (node : ℤ) (s : FillState) (e : ℤ) (s' : FillState)
    (h : procNeighbor node s e = some s') : StepOk s s' := by
  rcases procNeighbor_cases node s e s' h with rfl | ⟨-, kc, kd, dv, du, hkc, hkclt,
    hkcval, hkd, hkdlt, hkdval, hdu, hcase⟩
  · exact StepOk.refl _
  · rcases hcase with ⟨hle, rfl⟩ | ⟨hgt, rfl⟩
    · refine ⟨by simp, by simp, ?_, ?_⟩
      · intro k hk
        exact closedAt_set_true s.closed kc k hk
      · intro hlen k hk
        have hkdkc : kd = kc := by
          rw [hlen] at hkd
          rw [hkd] at hkc
          exact Option.some.inj hkc
        have hkne : k ≠ kd := by
          intro hkk
          subst hkk
          rw [hkdkc] at hk
          unfold closedAt at hk
          rw [hkcval] at hk
          exact absurd hk (by simp)
        exact getD_set_ne _ _ _ _ _ (fun hh => hkne hh.symm)
    · refine ⟨rfl, by simp, ?_, fun _ _ _ => rfl⟩
      intro k hk
      exact closedAt_set_true s.closed kc k hk

theorem procRow_StepOk (node : ℤ) (row : List ℤ) (s s' : FillState)
    (h : procRow node row s = some s') : StepOk s s' := by
  induction row generalizing s with
  | nil =>
    simp only [procRow] at h
    cases Option.some.inj h
    exact StepOk.refl _
  | cons e rest ih =>
    simp only [procRow] at h
    cases hp : procNeighbor node s e with
    | none => rw [hp] at h; exact absurd h (by simp)
    | some s2 =>
      rw [hp] at h
      exact (procNeighbor_StepOk node s e s2 hp).trans (ih s2 h)

theorem fillStep_StepOk (nbrs : List (List ℤ)) (s s' : FillState)
    (h : fillStep nbrs s = some s') : StepOk s s' := by
  unfold fillStep at h
  split at h
  · split at h
    · exact absurd h (by simp)
    · have h2 := procRow_StepOk _ _ _ s' h
      obtain ⟨hd, hc, hm, hf⟩ := h2
      exact ⟨hd, hc, hm, hf⟩
  · split at h
    · split at h
      · exact absurd h (by simp)
      · have h2 := procRow_StepOk _ _ _ s' h
        obtain ⟨hd, hc, hm, hf⟩ := h2
        exact ⟨hd, hc, hm, hf⟩
    · exact absurd h (by simp)

theorem fillLoop_StepOk (nbrs : List (List ℤ)) (fuel : ℕ) (s s' : FillState)
    (h : fillLoop nbrs fuel s = .ok s') : StepOk s s' := by
  induction fuel generalizing s with
  | zero =>
    simp only [fillLoop] at h
    split at h
    · cases FillRes.ok.inj h
      exact StepOk.refl _
    · exact absurd h (by simp)
  | succ n ih =>
    simp only [fillLoop] at h
    split at h
    · cases FillRes.ok.inj h
      exact StepOk.refl _
    · cases hs : fillStep nbrs s with
      | none => rw [hs] at h; exact absurd h (by simp)
      | some s2 =>
        rw [hs] at h
        exact (fillStep_StepOk nbrs s s2 hs).trans (ih s2 h)

theorem seedOne_StepOk (s : FillState) (i : ℕ) (s' : FillState)
    (h : seedOne s i = some s') : StepOk s s' := by
  unfold seedOne at h
  split at h
  · exact absurd h (by simp)
  · rename_i e he
    split at h
    · exact absurd h (by simp)
    · rename_i cl hcl
      cases Option.some.inj h
      obtain ⟨ki, hki, -⟩ : ∃ k, resolveIdx s.closed.length (i : ℤ) = some k ∧
          s.closed.set k true = cl := by
        unfold npSet at hcl
        cases hres : resolveIdx s.closed.length (i : ℤ) with
        | none => rw [hres] at hcl; exact absurd hcl (by simp)
        | some k =>
          rw [hres] at hcl
          exact ⟨k, rfl, Option.some.inj hcl⟩
      have hcl2 : cl = s.closed.set ki true := by
        unfold npSet at hcl
        rw [hki] at hcl
        exact (Option.some.inj hcl).symm
      subst hcl2
      exact ⟨rfl, by simp, fun k hk => closedAt_set_true s.closed ki k hk,
        fun _ _ _ => rfl⟩

theorem seedAll_StepOk (l : List ℕ) (s s' : FillState)
    (h : seedAll l s = some s') : StepOk s s' := by
  induction l generalizing s with
  | nil =>
    simp only [seedAll] at h
    cases Option.some.inj h
    exact StepOk.refl _
  | cons i rest ih =>
    simp only [seedAll] at h
    cases hs : seedOne s i with
    | none => rw [hs] at h; exact absurd h (by simp)
    | some s2 =>
      rw [hs] at h
      exact (seedOne_StepOk s i s2 hs).trans (ih s2 h)

theorem resolveIdx_natCast (len i : ℕ) :
    resolveIdx len (i : ℤ) = if i < len then some i else none := by
  unfold resolveIdx
  by_cases hi : i < len
  · rw [if_pos (by constructor <;> omega), if_pos hi]
    simp
  · rw [if_neg (by omega), if_neg (by omega), if_neg hi]

theorem mem_pqInsert (x p : ℚ × ℤ) (l : List (ℚ × ℤ)) (h : p ∈ pqInsert x l) :
    p = x ∨ p ∈ l := by
  induction l with
  | nil => simpa [pqInsert] using h
  | cons y ys ih =>
    unfold pqInsert at h
    split at h
    · rcases List.mem_cons.mp h with h1 | h1
      · exact Or.inl h1
      · exact Or.inr h1
    · rcases List.mem_cons.mp h with h1 | h1
      · exact Or.inr (List.mem_cons.mpr (Or.inl h1))
      · rcases ih h1 with h2 | h2
        · exact Or.inl h2
        · exact Or.inr (List.mem_cons.mpr (Or.inr h2))

theorem getD_replicate_false (n k : ℕ) : (List.replicate n false).getD k false = false := by
  rcases lt_or_le k n with h | h
  · rw [List.getD_eq_getElem?_getD, List.getElem?_replicate]
    simp [h]
  · exact getD_eq_default_of_le _ _ _ (by simpa using h)

/-! ### Claim C4: every visited node drains to an open boundary -/

/-- Open-boundary classification (`status == 1 or status == 2`). -/
def openStatus (g : FillGrid) (k : ℕ) : Prop :=
  g.status.getD k 0 = 1 ∨ g.status.getD k 0 = 2

instance (g : FillGrid) (k : ℕ) : Decidable (openStatus g k) := by
  unfold openStatus
  infer_instance

/-- Node `b` appears (as a raw entry, possibly negatively wrapped) in
node `a`'s processed neighbor row. -/
def NeighborEdge (nbrs : List (List ℤ)) (n : ℕ) (a b : ℕ) : Prop :=
  ∃ e ∈ nbrs.getD a [], e ≠ -1 ∧ resolveIdx n e = some b

/-- A chain, inside the set `C` of visited cells, from an open-boundary
seed up to `v`, each link a traversal edge along which `dem` does not
decrease.  This is the loop invariant of the no-pit property. -/
inductive Reach (g : FillGrid) (nbrs : List (List ℤ)) (n : ℕ) (dem : List ℚ)
    (C : ℕ → Prop) : ℕ → Prop
  | seed : ∀ v : ℕ, v < n → openStatus g v → C v → Reach g nbrs n dem C v
  | step : ∀ u v : ℕ, Reach g nbrs n dem C u → C v → NeighborEdge nbrs n u v →
      dem.getD u 0 ≤ dem.getD v 0 → Reach g nbrs n dem C v

theorem Reach.mem_C {g : FillGrid} {nbrs : List (List ℤ)} {n : ℕ} {dem : List ℚ}
    {C : ℕ → Prop} {k : ℕ} (h : Reach g nbrs n dem C k) : C k := by
  cases h with
  | seed v hv ho hc => exact hc
  | step u v hu hc he hle => exact hc

theorem Reach.transport {g : FillGrid} {nbrs : List (List ℤ)} {n : ℕ}
    {dem dem' : List ℚ} {C C' : ℕ → Prop} {k : ℕ}
    (h : Reach g nbrs n dem C k) (hC : ∀ x, C x → C' x)
    (hd : ∀ x, C x → dem'.getD x 0 = dem.getD x 0) :
    Reach g nbrs n dem' C' k := by
  induction h with
  | seed v hv ho hc => exact .seed v hv ho (hC v hc)
  | step u v hu hcv hedge hle ih =>
    refine .step u v ih (hC v hcv) hedge ?_
    rw [hd u hu.mem_C, hd v hcv]
    exact hle

/-- The main invariant of a `pit_fill` run: array lengths match the node
count, everything in either queue is closed, and every closed cell is
reachable from an open-boundary seed by a non-decreasing chain of closed
cells. -/
structure FillInv (g : FillGrid) (nbrs : List (List ℤ)) (n : ℕ) (s : FillState) :
    Prop where
  demLen : s.dem.length = n
  closedLen : s.closed.length = n
  raisedClosed : ∀ x ∈ s.raised, ∃ k, resolveIdx n x = some k ∧ closedAt s k
  pqClosed : ∀ p ∈ s.pq, ∃ k, resolveIdx n (Prod.snd p) = some k ∧ closedAt s k
  reach : ∀ k, closedAt s k → Reach g nbrs n s.dem (closedAt s) k

theorem procNeighbor_FillInv (g : FillGrid) (nbrs : List (List ℤ)) (n : ℕ)
    (uraw : ℤ) (ku : ℕ) (s : FillState) (e : ℤ) (s' : FillState)
    (inv : FillInv g nbrs n s)
    (hku : resolveIdx n uraw = some ku) (hclu : closedAt s ku)
    (herow : e ∈ nbrs.getD ku [])
    (h : procNeighbor uraw s e = some s') : FillInv g nbrs n s' := by
  obtain ⟨hd, hc, hm, hf⟩ := procNeighbor_StepOk uraw s e s' h
  have hfz : ∀ k, closedAt s k → s'.dem.getD k 0 = s.dem.getD k 0 :=
    hf (by rw [inv.demLen, inv.closedLen])
  rcases procNeighbor_cases uraw s e s' h with rfl | ⟨hne, kc, kd, dv, du, hkc,
    hkclt, hkcval, hkd, hkdlt, hkdval, hdu, hcase⟩
  · exact inv
  · have hkcn : resolveIdx n e = some kc := by rw [← inv.closedLen]; exact hkc
    have hkdn : resolveIdx n e = some kd := by rw [← inv.demLen]; exact hkd
    have hkckd : kd = kc := by
      rw [hkcn] at hkdn
      exact (Option.some.inj hkdn).symm
    have hdu2 : du = s.dem.getD ku 0 := by
      have h2 := npIdx_eq_getD (l := s.dem) (i := uraw) 0
        (by rw [inv.demLen]; exact hku)
      rw [h2] at hdu
      exact (Option.some.inj hdu).symm
    have hkune : ku ≠ kc := by
      intro hh
      subst hh
      unfold closedAt at hclu
      rw [hkcval] at hclu
      exact absurd hclu (by simp)
    have hedge : NeighborEdge nbrs n ku kc := ⟨e, herow, hne, hkcn⟩
    -- the closed set after the step
    have hclosed' : ∀ k, closedAt s' k → closedAt s k ∨ k = kc := by
      intro k hk
      by_cases hkk : k = kc
      · exact Or.inr hkk
      · left
        rcases hcase with ⟨-, rfl⟩ | ⟨-, rfl⟩ <;>
          · unfold closedAt at hk ⊢
            rw [getD_set_ne _ _ _ _ _ (fun hh => hkk hh.symm)] at hk
            exact hk
    have hkcclosed' : closedAt s' kc := by
      rcases hcase with ⟨-, rfl⟩ | ⟨-, rfl⟩ <;>
        · unfold closedAt
          rw [getD_set_self _ _ _ _ hkclt]
    have hreachku : Reach g nbrs n s'.dem (closedAt s') ku :=
      (inv.reach ku hclu).transport hm hfz
    have hnewle : s'.dem.getD ku 0 ≤ s'.dem.getD kc 0 := by
      rcases hcase with ⟨hle, rfl⟩ | ⟨hgt, rfl⟩
      · have hkukd : ku ≠ kd := by rw [hkckd]; exact hkune
        show (s.dem.set kd du).getD ku 0 ≤ (s.dem.set kd du).getD kc 0
        rw [getD_set_ne _ _ _ _ _ (fun hh => hkukd hh.symm), ← hkckd,
          getD_set_self _ _ _ _ hkdlt, ← hdu2]
      · show s.dem.getD ku 0 ≤ s.dem.getD kc 0
        rw [← hdu2, ← hkckd, hkdval]
        exact le_of_lt (lt_of_not_le hgt)
    have hreachkc : Reach g nbrs n s'.dem (closedAt s') kc :=
      .step ku kc hreachku hkcclosed' hedge hnewle
    refine ⟨hd.trans inv.demLen, hc.trans inv.closedLen, ?_, ?_, ?_⟩
    · intro x hx
      rcases hcase with ⟨-, rfl⟩ | ⟨-, rfl⟩
      · rcases List.mem_append.mp hx with hx1 | hx1
        · obtain ⟨k, hk1, hk2⟩ := inv.raisedClosed x hx1
          exact ⟨k, hk1, hm k hk2⟩
        · have hxe : x = e := by simpa using hx1
          subst hxe
          exact ⟨kc, hkcn, hkcclosed'⟩
      · obtain ⟨k, hk1, hk2⟩ := inv.raisedClosed x hx
        exact ⟨k, hk1, hm k hk2⟩
    · intro p hp
      rcases hcase with ⟨-, rfl⟩ | ⟨-, rfl⟩
      · obtain ⟨k, hk1, hk2⟩ := inv.pqClosed p hp
        exact ⟨k, hk1, hm k hk2⟩
      · rcases mem_pqInsert _ p _ hp with hp1 | hp1
        · subst hp1
          exact ⟨kc, hkcn, hkcclosed'⟩
        · obtain ⟨k, hk1, hk2⟩ := inv.pqClosed p hp1
          exact ⟨k, hk1, hm k hk2⟩
    · intro k hk
      rcases hclosed' k hk with hk1 | rfl
      · exact (inv.reach k hk1).transport hm hfz
      · exact hreachkc

theorem procRow_FillInv (g : FillGrid) (nbrs : List (List ℤ)) (n : ℕ)
    (uraw : ℤ) (ku : ℕ) (row : List ℤ) (s s' : FillState)
    (inv : FillInv g nbrs n s)
    (hku : resolveIdx n uraw = some ku) (hclu : closedAt s ku)
    (hsub : ∀ e ∈ row, e ∈ nbrs.getD ku [])
    (h : procRow uraw row s = some s') : FillInv g nbrs n s' := by
  induction row generalizing s with
  | nil =>
    simp only [procRow] at h
    cases Option.some.inj h
    exact inv
  | cons e rest ih =>
    simp only [procRow] at h
    cases hp : procNeighbor uraw s e with
    | none => rw [hp] at h; exact absurd h (by simp)
    | some s2 =>
      rw [hp] at h
      have inv2 := procNeighbor_FillInv g nbrs n uraw ku s e s2 inv hku hclu
        (hsub e (List.mem_cons.mpr (Or.inl rfl))) hp
      have hclu2 : closedAt s2 ku := (procNeighbor_StepOk uraw s e s2 hp).2.2.1 ku hclu
      exact ih s2 inv2 hclu2 (fun e2 he2 => hsub e2 (List.mem_cons.mpr (Or.inr he2))) h

theorem fillStep_FillInv (g : FillGrid) (nbrs : List (List ℤ)) (n : ℕ)
    (s s' : FillState) (hn : nbrs.length = n) (inv : FillInv g nbrs n s)
    (h : fillStep nbrs s = some s') : FillInv g nbrs n s' := by
  unfold fillStep at h
  split at h
  · rename_i x rest hraised
    obtain ⟨ku, hku, hclu⟩ := inv.raisedClosed x (by rw [hraised]; simp)
    split at h
    · exact absurd h (by simp)
    · rename_i row hrow
      obtain ⟨kr, hkr, hkrlt, hkrval⟩ := npIdx_some_elim [] hrow
      rw [hn] at hkr
      rw [hkr] at hku
      cases Option.some.inj hku
      refine procRow_FillInv g nbrs n x ku row
        { dem := s.dem, closed := s.closed, raised := rest, pq := s.pq } s' ?_ hkr hclu
        (fun e he => by rw [hkrval]; exact he) h
      exact ⟨inv.demLen, inv.closedLen,
        fun y hy => inv.raisedClosed y (by rw [hraised]; exact List.mem_cons.mpr (Or.inr hy)),
        inv.pqClosed, inv.reach⟩
  · split at h
    · rename_i q v tl hpq
      obtain ⟨ku, hku, hclu⟩ := inv.pqClosed (q, v) (by rw [hpq]; simp)
      split at h
      · exact absurd h (by simp)
      · rename_i row hrow
        obtain ⟨kr, hkr, hkrlt, hkrval⟩ := npIdx_some_elim [] hrow
        rw [hn] at hkr
        rw [hkr] at hku
        cases Option.some.inj hku
        refine procRow_FillInv g nbrs n v ku row
          { dem := s.dem, closed := s.closed, raised := s.raised, pq := tl } s' ?_ hkr hclu
          (fun e he => by rw [hkrval]; exact he) h
        exact ⟨inv.demLen, inv.closedLen, inv.raisedClosed,
          fun y hy => inv.pqClosed y (by rw [hpq]; exact List.mem_cons.mpr (Or.inr hy)),
          inv.reach⟩
    · exact absurd h (by simp)

theorem fillLoop_FillInv (g : FillGrid) (nbrs : List (List ℤ)) (n : ℕ)
    (fuel : ℕ) (s s' : FillState) (hn : nbrs.length = n)
    (inv : FillInv g nbrs n s) (h : fillLoop nbrs fuel s = .ok s') :
    FillInv g nbrs n s' := by
  induction fuel generalizing s with
  | zero =>
    simp only [fillLoop] at h
    split at h
    · cases FillRes.ok.inj h
      exact inv
    · exact absurd h (by simp)
  | succ m ih =>
    simp only [fillLoop] at h
    split at h
    · cases FillRes.ok.inj h
      exact inv
    · cases hs : fillStep nbrs s with
      | none => rw [hs] at h; exact absurd h (by simp)
      | some s2 =>
        rw [hs] at h
        exact ih s2 (fillStep_FillInv g nbrs n s s2 hn inv hs) h

theorem seedOne_FillInv (g : FillGrid) (nbrs : List (List ℤ)) (n : ℕ)
    (s : FillState) (i : ℕ) (s' : FillState)
    (inv : FillInv g nbrs n s) (hopen : openStatus g i)
    (h : seedOne s i = some s') : FillInv g nbrs n s' := by
  unfold seedOne at h
  split at h
  · exact absurd h (by simp)
  · rename_i e he
    split at h
    · exact absurd h (by simp)
    · rename_i cl hcl
      have hilt : i < s.closed.length := by
        unfold npSet at hcl
        rw [resolveIdx_natCast] at hcl
        by_contra hh
        rw [if_neg hh] at hcl
        exact absurd hcl (by simp)
      have hcl2 : cl = s.closed.set i true := by
        unfold npSet at hcl
        rw [resolveIdx_natCast, if_pos hilt] at hcl
        exact (Option.some.inj hcl).symm
      subst hcl2
      cases Option.some.inj h
      have hkin : resolveIdx n (i : ℤ) = some i := by
        rw [resolveIdx_natCast, if_pos (by rw [← inv.closedLen]; exact hilt)]
      have hmono : ∀ k, closedAt s k →
          (s.closed.set i true).getD k false = true :=
        fun k hk => closedAt_set_true s.closed i k hk
      have hinew : (s.closed.set i true).getD i false = true :=
        getD_set_self _ _ _ _ hilt
      refine ⟨inv.demLen, by simpa using inv.closedLen, ?_, ?_, ?_⟩
      · intro x hx
        obtain ⟨k, hk1, hk2⟩ := inv.raisedClosed x hx
        exact ⟨k, hk1, hmono k hk2⟩
      · intro p hp
        rcases mem_pqInsert _ p _ hp with hp1 | hp1
        · subst hp1
          exact ⟨i, hkin, hinew⟩
        · obtain ⟨k, hk1, hk2⟩ := inv.pqClosed p hp1
          exact ⟨k, hk1, hmono k hk2⟩
      · intro k hk
        have hsplit : closedAt s k ∨ k = i := by
          by_cases hkk : k = i
          · exact Or.inr hkk
          · left
            unfold closedAt at hk ⊢
            rw [show (FillState.mk s.dem (s.closed.set i true) s.raised
                (pqInsert (e, (i : ℤ)) s.pq)).closed = s.closed.set i true from rfl,
              getD_set_ne _ _ _ _ _ (fun hh => hkk hh.symm)] at hk
            exact hk
        rcases hsplit with hk1 | rfl
        · exact (inv.reach k hk1).transport hmono (fun _ _ => rfl)
        · exact .seed k (by rw [← inv.closedLen]; exact hilt) hopen hinew

theorem seedAll_FillInv (g : FillGrid) (nbrs : List (List ℤ)) (n : ℕ)
    (l : List ℕ) (s s' : FillState) (inv : FillInv g nbrs n s)
    (hopen : ∀ i ∈ l, openStatus g i)
    (h : seedAll l s = some s') : FillInv g nbrs n s' := by
  induction l generalizing s with
  | nil =>
    simp only [seedAll] at h
    cases Option.some.inj h
    exact inv
  | cons i rest ih =>
    simp only [seedAll] at h
    cases hs : seedOne s i with
    | none => rw [hs] at h; exact absurd h (by simp)
    | some s2 =>
      rw [hs] at h
      exact ih s2 (seedOne_FillInv g nbrs n s i s2 inv
          (hopen i (List.mem_cons.mpr (Or.inl rfl))) hs)
        (fun j hj => hopen j (List.mem_cons.mpr (Or.inr hj))) h

/-- A non-increasing elevation path, through the neighbor graph, from a
node down to some open-boundary node — read from the node's side, each
step moves to an adjacent node of no greater elevation. -/
inductive DescendsToOpen (g : FillGrid) (nbrs : List (List ℤ)) (n : ℕ)
    (dem : List ℚ) : ℕ → Prop
  | base : ∀ v : ℕ, openStatus g v → DescendsToOpen g nbrs n dem v
  | step : ∀ v u : ℕ, (NeighborEdge nbrs n u v ∨ NeighborEdge nbrs n v u) →
      dem.getD u 0 ≤ dem.getD v 0 → DescendsToOpen g nbrs n dem u →
      DescendsToOpen g nbrs n dem v

theorem Reach.descends {g : FillGrid} {nbrs : List (List ℤ)} {n : ℕ}
    {dem : List ℚ} {C : ℕ → Prop} {k : ℕ} (h : Reach g nbrs n dem C k) :
    DescendsToOpen g nbrs n dem k := by
  induction h with
  | seed v hv ho hc => exact .base v ho
  | step u v hu hcv hedge hle ih => exact .step v u (Or.inl hedge) hle ih

theorem construct_neighbors_length (g : FillGrid)
    (hnrows : g.neighborRows.length = g.nNodes)
    (hdrows : g.diagonalRows.length = g.nNodes) :
    (PitFiller.construct g).neighbors.length = g.nNodes := by
  unfold PitFiller.construct
  simp [hnrows, hdrows]

theorem construct_openBoundary_open (g : FillGrid) :
    ∀ i ∈ (PitFiller.construct g).openBoundary, openStatus g i := by
  intro i hi
  unfold PitFiller.construct at hi
  simp only [List.mem_filter] at hi
  have := hi.2
  unfold openStatus
  simpa using this

/-- The main invariant holds at the end of every completed
`pit_fill_state` run on a well-formed grid. -/
theorem pit_fill_state_FillInv (g : FillGrid) (s : FillState)
    (hdem : g.dem.length = g.nNodes)
    (hnrows : g.neighborRows.length = g.nNodes)
    (hdrows : g.diagonalRows.length = g.nNodes)
    (h : pit_fill_state (PitFiller.construct g) = some s) :
    FillInv g (PitFiller.construct g).neighbors g.nNodes s := by
  have hn := construct_neighbors_length g hnrows hdrows
  have hobopen := construct_openBoundary_open g
  unfold pit_fill_state at h
  split at h
  · exact absurd h (by simp)
  · rename_i s1 hseed
    split at h
    · rename_i s2 hloop
      cases Option.some.inj h
      have inv0 : FillInv g (PitFiller.construct g).neighbors g.nNodes
          { dem := (PitFiller.construct g).demCopy,
            closed := List.replicate (PitFiller.construct g).nCopy false,
            raised := [], pq := [] } := by
        refine ⟨hdem, by simp [PitFiller.construct], by simp, by simp, ?_⟩
        intro k hk
        unfold closedAt at hk
        rw [show (FillState.mk (PitFiller.construct g).demCopy
            (List.replicate (PitFiller.construct g).nCopy false) [] []).closed =
            List.replicate (PitFiller.construct g).nCopy false from rfl,
          getD_replicate_false] at hk
        exact absurd hk (by simp)
      have inv1 := seedAll_FillInv g _ g.nNodes _ _ s1 inv0 hobopen hseed
      exact fillLoop_FillInv g _ g.nNodes _ s1 _ hn inv1 hloop
    · exact absurd h (by simp)

/-- C4 (confirmed).  For a well-formed grid (per-node arrays of length
`number_of_nodes`), after a completed `pit_fill` run every visited node
(cell marked closed during the run) has a path through the neighbor
graph, with non-increasing output elevation, ending at an open-boundary
node.  A visited open-boundary node is its own (trivial) path. -/
theorem pit_fill_no_pit (g : FillGrid) (s : FillState)
    (hdem : g.dem.length = g.nNodes)
    (hnrows : g.neighborRows.length = g.nNodes)
    (hdrows : g.diagonalRows.length = g.nNodes)
    (h : pit_fill_state (PitFiller.construct g) = some s) :
    ∀ k, closedAt s k →
      DescendsToOpen g (PitFiller.construct g).neighbors g.nNodes s.dem k := by
  have inv2 := pit_fill_state_FillInv g s hdem hnrows hdrows h
  intro k hk
  exact (inv2.reach k hk).descends

/-- C4 witness grid: the filled pit of `gC3` again. -/
def gC4 : FillGrid :=
  { nNodes := 3
    dem := [0, 5, 3]
    status := [1, 0, 0]
    neighborRows := [[1, -1], [0, 2], [1, -1]]
    diagonalRows := [[], [], []] }

/-- C4, witness: node 2 (the raised pit) of the concrete run on `gC4`
drains to the open boundary along non-increasing output elevations. -/
theorem pit_fill_no_pit_witness :
    DescendsToOpen gC4 (PitFiller.construct gC4).neighbors gC4.nNodes
      (FillState.mk [0, 5, 5] [true, true, true] [] []).dem 2 :=
  pit_fill_no_pit gC4 (FillState.mk [0, 5, 5] [true, true, true] [] [])
    (by decide) (by decide) (by decide) (by decide) 2 (by decide)

/-! ### Claim C8: idempotence of `pit_fill`

The second run of the priority flood on an already-filled surface raises
nothing.  The development below follows the standard Dijkstra-style
argument: queue keys dominate the last popped level, every still-unvisited
node of the first run's visited set `R` has, along its first-run closing
chain, a queue entry whose key is at most its filled elevation, hence
every node is closed at a pop level no greater than its filled elevation
and the "raise" assignment writes the value already there. -/

theorem get?_eq_some_getD {α : Type} {l : List α} {i : ℕ} {x : α} (d : α)
    (h : l.get? i = some x) : i < l.length ∧ l.getD i d = x := by
  have hlt : i < l.length := by
    by_contra hh
    rw [List.get?_eq_getElem?, List.getElem?_eq_none (by omega)] at h
    exact absurd h (by simp)
  refine ⟨hlt, ?_⟩
  rw [List.getD_eq_getElem?_getD, ← List.get?_eq_getElem?, h]
  rfl

theorem pqInsert_length (x : ℚ × ℤ) (l : List (ℚ × ℤ)) :
    (pqInsert x l).length = l.length + 1 := by
  induction l with
  | nil => rfl
  | cons y ys ih =>
    unfold pqInsert
    split
    · simp
    · simp [ih]

theorem pqLe_total_fst (x y : ℚ × ℤ) (h : ¬ pqLe x y) : y.1 ≤ x.1 := by
  unfold pqLe at h
  push_neg at h
  exact h.1

theorem pqInsert_pairwise (x : ℚ × ℤ) (l : List (ℚ × ℤ))
    (h : l.Pairwise (fun a b => a.1 ≤ b.1)) :
    (pqInsert x l).Pairwise (fun a b => a.1 ≤ b.1) := by
  induction l with
  | nil => simp [pqInsert]
  | cons y ys ih =>
    rw [List.pairwise_cons] at h
    unfold pqInsert
    split
    · rename_i hle
      have hxy : x.1 ≤ y.1 := by
        rcases hle with h1 | h1
        · exact le_of_lt h1
        · exact le_of_eq h1.1
      rw [List.pairwise_cons]
      refine ⟨?_, List.pairwise_cons.mpr h⟩
      intro b hb
      rcases List.mem_cons.mp hb with rfl | hb1
      · exact hxy
      · exact hxy.trans (h.1 b hb1)
    · rename_i hgt
      rw [List.pairwise_cons]
      refine ⟨?_, ih h.2⟩
      intro b hb
      rcases mem_pqInsert x b ys hb with heq | hb1
      · rw [heq]
        exact pqLe_total_fst x y hgt
      · exact h.1 b hb1

theorem count_false_set_true (l : List Bool) (k : ℕ) (hk : k < l.length)
    (hv : l.getD k false = false) :
    (l.set k true).count false + 1 = l.count false := by
  induction l generalizing k with
  | nil => simp at hk
  | cons b t ih =>
    cases k with
    | zero =>
      simp only [List.getD_cons_zero] at hv
      subst hv
      simp [List.set, List.count_cons]
    | succ m =>
      simp only [List.getD_cons_succ] at hv
      simp only [List.set, List.count_cons]
      have := ih m (by simpa using hk) hv
      omega

theorem procNeighbor_measure (node : ℤ) (s : FillState) (e : ℤ) (s' : FillState)
    (h : procNeighbor node s e = some s') : fillMeasure s' ≤ fillMeasure s := by
  rcases procNeighbor_cases node s e s' h with rfl | ⟨-, kc, kd, dv, du, hkc, hkclt,
    hkcval, hkd, hkdlt, hkdval, hdu, hcase⟩
  · exact le_refl _
  · have hcount := count_false_set_true s.closed kc hkclt hkcval
    rcases hcase with ⟨-, rfl⟩ | ⟨-, rfl⟩
    · unfold fillMeasure
      simp only [List.length_append, List.length_cons, List.length_nil]
      omega
    · unfold fillMeasure
      simp only [pqInsert_length]
      omega

theorem procRow_measure (node : ℤ) (row : List ℤ) (s s' : FillState)
    (h : procRow node row s = some s') : fillMeasure s' ≤ fillMeasure s := by
  induction row generalizing s with
  | nil =>
    simp only [procRow] at h
    cases Option.some.inj h
    exact le_refl _
  | cons e rest ih =>
    simp only [procRow] at h
    cases hp : procNeighbor node s e with
    | none => rw [hp] at h; exact absurd h (by simp)
    | some s2 =>
      rw [hp] at h
      exact (ih s2 h).trans (procNeighbor_measure node s e s2 hp)

theorem fillStep_measure (nbrs : List (List ℤ)) (s s' : FillState)
    (hne : ¬ (s.raised = [] ∧ s.pq = []))
    (h : fillStep nbrs s = some s') : fillMeasure s' < fillMeasure s := by
  unfold fillStep at h
  split at h
  · rename_i v rest hraised
    split at h
    · exact absurd h (by simp)
    · have h2 := procRow_measure _ _ _ s' h
      unfold fillMeasure at h2 ⊢
      simp only [hraised, List.length_cons]
      simp only [List.length_cons] at h2
      omega
  · rename_i hraised
    split at h
    · rename_i q v tl hpq
      split at h
      · exact absurd h (by simp)
      · have h2 := procRow_measure _ _ _ s' h
        unfold fillMeasure at h2 ⊢
        dsimp only at h2
        simp only [hpq, List.length_cons]
        omega
    · rename_i hpq
      exact absurd ⟨hraised, hpq⟩ hne

/-- Every raw entry of node `k`'s processed row is the sentinel or
resolves to a cell in `C`. -/
def RowOK (nbrs : List (List ℤ)) (n : ℕ) (C : ℕ → Prop) (k : ℕ) : Prop :=
  ∀ e ∈ nbrs.getD k [], e = -1 ∨ ∃ k', resolveIdx n e = some k' ∧ C k'

/-- Some entry of one of the two queues resolves to cell `k`. -/
def inQueues (n : ℕ) (t : FillState) (k : ℕ) : Prop :=
  (∃ x ∈ t.raised, resolveIdx n x = some k) ∨
  (∃ p ∈ t.pq, resolveIdx n (Prod.snd p) = some k)

theorem RowOK_mono (nbrs : List (List ℤ)) (n : ℕ) {C C' : ℕ → Prop} (k : ℕ)
    (hC : ∀ x, C x → C' x) (h : RowOK nbrs n C k) : RowOK nbrs n C' k := by
  intro e he
  rcases h e he with h1 | ⟨k', hk1, hk2⟩
  · exact Or.inl h1
  · exact Or.inr ⟨k', hk1, hC k' hk2⟩

theorem self_mem_pqInsert (x : ℚ × ℤ) (l : List (ℚ × ℤ)) : x ∈ pqInsert x l := by
  induction l with
  | nil => simp [pqInsert]
  | cons y ys ih =>
    unfold pqInsert
    split
    · simp
    · exact List.mem_cons.mpr (Or.inr ih)

theorem mem_pqInsert_of_mem (x p : ℚ × ℤ) (l : List (ℚ × ℤ)) (h : p ∈ l) :
    p ∈ pqInsert x l := by
  induction l with
  | nil => simp at h
  | cons y ys ih =>
    unfold pqInsert
    split
    · exact List.mem_cons.mpr (Or.inr h)
    · rcases List.mem_cons.mp h with rfl | h1
      · exact List.mem_cons.mpr (Or.inl rfl)
      · exact List.mem_cons.mpr (Or.inr (ih h1))

/-- The "everything closed is queued or fully processed" invariant, with
an escape hatch for the node `k0` whose row is currently being walked. -/
def InvHx (nbrs : List (List ℤ)) (n : ℕ) (k0 : ℕ) (t : FillState) : Prop :=
  ∀ k, closedAt t k → inQueues n t k ∨ RowOK nbrs n (closedAt t) k ∨ k = k0

/-- The between-iterations form of the processing invariant. -/
def InvH (nbrs : List (List ℤ)) (n : ℕ) (t : FillState) : Prop :=
  ∀ k, closedAt t k → inQueues n t k ∨ RowOK nbrs n (closedAt t) k

theorem procNeighbor_inQueues (node : ℤ) (s : FillState) (e : ℤ) (s' : FillState)
    (h : procNeighbor node s e = some s') (n : ℕ) (k : ℕ)
    (hq : inQueues n s k) : inQueues n s' k := by
  rcases procNeighbor_cases node s e s' h with rfl | ⟨-, kc, kd, dv, du, -, -, -, -,
    -, -, -, hcase⟩
  · exact hq
  · rcases hcase with ⟨-, rfl⟩ | ⟨-, rfl⟩
    · rcases hq with ⟨x, hx1, hx2⟩ | ⟨p, hp1, hp2⟩
      · exact Or.inl ⟨x, List.mem_append.mpr (Or.inl hx1), hx2⟩
      · exact Or.inr ⟨p, hp1, hp2⟩
    · rcases hq with ⟨x, hx1, hx2⟩ | ⟨p, hp1, hp2⟩
      · exact Or.inl ⟨x, hx1, hx2⟩
      · exact Or.inr ⟨p, mem_pqInsert_of_mem _ p _ hp1, hp2⟩

theorem procNeighbor_InvHx (nbrs : List (List ℤ)) (n : ℕ) (k0 : ℕ) (node : ℤ)
    (s : FillState) (e : ℤ) (s' : FillState)
    (hlen : s.closed.length = n) (hx : InvHx nbrs n k0 s)
    (h : procNeighbor node s e = some s') : InvHx nbrs n k0 s' := by
  have hmono := (procNeighbor_StepOk node s e s' h).2.2.1
  rcases procNeighbor_cases node s e s' h with rfl | ⟨hne, kc, kd, dv, du, hkc,
    hkclt, hkcval, hkd, hkdlt, hkdval, hdu, hcase⟩
  · exact hx
  · have hkcn : resolveIdx n e = some kc := by rw [← hlen]; exact hkc
    have hkcq : inQueues n s' kc := by
      rcases hcase with ⟨-, rfl⟩ | ⟨-, rfl⟩
      · exact Or.inl ⟨e, List.mem_append.mpr (Or.inr (by simp)), hkcn⟩
      · exact Or.inr ⟨(dv, e), self_mem_pqInsert _ _, hkcn⟩
    intro k hk
    have hksplit : closedAt s k ∨ k = kc := by
      by_cases hkk : k = kc
      · exact Or.inr hkk
      · left
        rcases hcase with ⟨-, rfl⟩ | ⟨-, rfl⟩ <;>
          · unfold closedAt at hk ⊢
            rw [show (FillState.mk _ (s.closed.set kc true) _ _).closed =
                s.closed.set kc true from rfl,
              getD_set_ne _ _ _ _ _ (fun hh => hkk hh.symm)] at hk
            exact hk
    rcases hksplit with hk1 | rfl
    · rcases hx k hk1 with hq | hrow | hk0
      · exact Or.inl (procNeighbor_inQueues node s e s' h n k hq)
      · exact Or.inr (Or.inl (RowOK_mono nbrs n k hmono hrow))
      · exact Or.inr (Or.inr hk0)
    · exact Or.inl hkcq

theorem procNeighbor_processed (_nbrs : List (List ℤ)) (n : ℕ) (node : ℤ)
    (s : FillState) (e : ℤ) (s' : FillState)
    (hlen : s.closed.length = n)
    (h : procNeighbor node s e = some s') :
    e = -1 ∨ ∃ k', resolveIdx n e = some k' ∧ closedAt s' k' := by
  unfold procNeighbor at h
  by_cases he : e = -1
  · exact Or.inl he
  · right
    rw [if_neg he] at h
    cases hc : npIdx s.closed e with
    | none => rw [hc] at h; exact absurd h (by simp)
    | some c =>
      rw [hc] at h
      obtain ⟨kc, hkc, hkclt, hkcval⟩ := npIdx_some_elim false hc
      refine ⟨kc, by rw [← hlen]; exact hkc, ?_⟩
      cases c with
      | true =>
        cases Option.some.inj h
        unfold closedAt
        exact hkcval
      | false =>
        rw [npSet_some_of_resolve true hkc] at h
        cases hdv : npIdx s.dem e with
        | none => rw [hdv] at h; exact absurd h (by simp)
        | some dv =>
          cases hdu : npIdx s.dem node with
          | none => rw [hdv, hdu] at h; exact absurd h (by simp)
          | some du =>
            rw [hdv, hdu] at h
            dsimp only at h
            by_cases hle : dv ≤ du
            · rw [if_pos hle] at h
              cases hds : npSet s.dem e du with
              | none => rw [hds] at h; exact absurd h (by simp)
              | some dem2 =>
                rw [hds] at h
                cases Option.some.inj h
                unfold closedAt
                exact getD_set_self _ _ _ _ hkclt
            · rw [if_neg hle] at h
              cases Option.some.inj h
              unfold closedAt
              exact getD_set_self _ _ _ _ hkclt

theorem procRow_InvHx (nbrs : List (List ℤ)) (n : ℕ) (k0 : ℕ) (node : ℤ)
    (row : List ℤ) (s s' : FillState)
    (hlen : s.closed.length = n) (hx : InvHx nbrs n k0 s)
    (h : procRow node row s = some s') :
    InvHx nbrs n k0 s' ∧
      ∀ e ∈ row, e = -1 ∨ ∃ k', resolveIdx n e = some k' ∧ closedAt s' k' := by
  induction row generalizing s with
  | nil =>
    simp only [procRow] at h
    cases Option.some.inj h
    exact ⟨hx, by simp⟩
  | cons e rest ih =>
    simp only [procRow] at h
    cases hp : procNeighbor node s e with
    | none => rw [hp] at h; exact absurd h (by simp)
    | some s2 =>
      rw [hp] at h
      have hlen2 : s2.closed.length = n :=
        ((procNeighbor_StepOk node s e s2 hp).2.1).trans hlen
      have hx2 := procNeighbor_InvHx nbrs n k0 node s e s2 hlen hx hp
      obtain ⟨hx', hproc'⟩ := ih s2 hlen2 hx2 h
      refine ⟨hx', ?_⟩
      intro e2 he2
      rcases List.mem_cons.mp he2 with rfl | he3
      · rcases procNeighbor_processed nbrs n node s e2 s2 hlen hp with h1 | ⟨k', hk1, hk2⟩
        · exact Or.inl h1
        · exact Or.inr ⟨k', hk1,
            (procRow_StepOk node rest s2 s' h).2.2.1 k' hk2⟩
      · exact hproc' e2 he3

theorem fillStep_InvH (nbrs : List (List ℤ)) (n : ℕ) (s s' : FillState)
    (hn : nbrs.length = n) (hlen : s.closed.length = n)
    (hq : InvH nbrs n s) (h : fillStep nbrs s = some s') : InvH nbrs n s' := by
  unfold fillStep at h
  split at h
  · rename_i x rest hraised
    split at h
    · exact absurd h (by simp)
    · rename_i row hrow
      obtain ⟨k0, hk0, hk0lt, hk0val⟩ := npIdx_some_elim [] hrow
      rw [hn] at hk0
      have hx1 : InvHx nbrs n k0
          { dem := s.dem, closed := s.closed, raised := rest, pq := s.pq } := by
        intro k hk
        rcases hq k hk with (⟨y, hy1, hy2⟩ | ⟨p, hp1, hp2⟩) | hrowk
        · rw [hraised] at hy1
          rcases List.mem_cons.mp hy1 with rfl | hy3
          · rw [hk0] at hy2
            exact Or.inr (Or.inr (Option.some.inj hy2).symm)
          · exact Or.inl (Or.inl ⟨y, hy3, hy2⟩)
        · exact Or.inl (Or.inr ⟨p, hp1, hp2⟩)
        · exact Or.inr (Or.inl hrowk)
      obtain ⟨hx', hproc⟩ := procRow_InvHx nbrs n k0 x row
        { dem := s.dem, closed := s.closed, raised := rest, pq := s.pq } s' hlen hx1 h
      intro k hk
      rcases hx' k hk with hq2 | hrow2 | rfl
      · exact Or.inl hq2
      · exact Or.inr hrow2
      · right
        intro e he
        exact hproc e (by rw [← hk0val]; exact he)
  · split at h
    · rename_i q v tl hpq
      split at h
      · exact absurd h (by simp)
      · rename_i row hrow
        obtain ⟨k0, hk0, hk0lt, hk0val⟩ := npIdx_some_elim [] hrow
        rw [hn] at hk0
        have hx1 : InvHx nbrs n k0
            { dem := s.dem, closed := s.closed, raised := s.raised, pq := tl } := by
          intro k hk
          rcases hq k hk with (⟨y, hy1, hy2⟩ | ⟨p, hp1, hp2⟩) | hrowk
          · exact Or.inl (Or.inl ⟨y, hy1, hy2⟩)
          · rw [hpq] at hp1
            rcases List.mem_cons.mp hp1 with rfl | hp3
            · rw [hk0] at hp2
              exact Or.inr (Or.inr (Option.some.inj hp2).symm)
            · exact Or.inl (Or.inr ⟨p, hp3, hp2⟩)
          · exact Or.inr (Or.inl hrowk)
        obtain ⟨hx', hproc⟩ := procRow_InvHx nbrs n k0 v row
          { dem := s.dem, closed := s.closed, raised := s.raised, pq := tl } s' hlen hx1 h
        intro k hk
        rcases hx' k hk with hq2 | hrow2 | rfl
        · exact Or.inl hq2
        · exact Or.inr hrow2
        · right
          intro e he
          exact hproc e (by rw [← hk0val]; exact he)
    · exact absurd h (by simp)

theorem fillLoop_InvH (nbrs : List (List ℤ)) (n : ℕ) (fuel : ℕ) (s s' : FillState)
    (hn : nbrs.length = n) (hlen : s.closed.length = n)
    (hq : InvH nbrs n s) (h : fillLoop nbrs fuel s = .ok s') : InvH nbrs n s' := by
  induction fuel generalizing s with
  | zero =>
    simp only [fillLoop] at h
    split at h
    · cases FillRes.ok.inj h
      exact hq
    · exact absurd h (by simp)
  | succ m ih =>
    simp only [fillLoop] at h
    split at h
    · cases FillRes.ok.inj h
      exact hq
    · cases hs : fillStep nbrs s with
      | none => rw [hs] at h; exact absurd h (by simp)
      | some s2 =>
        rw [hs] at h
        exact ih s2 ((fillStep_StepOk nbrs s s2 hs).2.1.trans hlen)
          (fillStep_InvH nbrs n s s2 hn hlen hq hs) h

theorem fillLoop_ok_empty (nbrs : List (List ℤ)) (fuel : ℕ) (s s' : FillState)
    (h : fillLoop nbrs fuel s = .ok s') : s'.raised = [] ∧ s'.pq = [] := by
  induction fuel generalizing s with
  | zero =>
    simp only [fillLoop] at h
    split at h
    · cases FillRes.ok.inj h
      assumption
    · exact absurd h (by simp)
  | succ m ih =>
    simp only [fillLoop] at h
    split at h
    · cases FillRes.ok.inj h
      assumption
    · cases hs : fillStep nbrs s with
      | none => rw [hs] at h; exact absurd h (by simp)
      | some s2 =>
        rw [hs] at h
        exact ih s2 h

theorem seedOne_InvH (nbrs : List (List ℤ)) (n : ℕ) (s : FillState) (i : ℕ)
    (s' : FillState) (hlen : s.closed.length = n)
    (hq : InvH nbrs n s) (h : seedOne s i = some s') : InvH nbrs n s' := by
  unfold seedOne at h
  split at h
  · exact absurd h (by simp)
  · rename_i e he
    split at h
    · exact absurd h (by simp)
    · rename_i cl hcl
      have hilt : i < s.closed.length := by
        unfold npSet at hcl
        rw [resolveIdx_natCast] at hcl
        by_contra hh
        rw [if_neg hh] at hcl
        exact absurd hcl (by simp)
      have hcl2 : cl = s.closed.set i true := by
        unfold npSet at hcl
        rw [resolveIdx_natCast, if_pos hilt] at hcl
        exact (Option.some.inj hcl).symm
      subst hcl2
      cases Option.some.inj h
      intro k hk
      have hkin : resolveIdx n (i : ℤ) = some i := by
        rw [resolveIdx_natCast, if_pos (by rw [← hlen]; exact hilt)]
      have hksplit : closedAt s k ∨ k = i := by
        by_cases hkk : k = i
        · exact Or.inr hkk
        · left
          unfold closedAt at hk ⊢
          rw [show (FillState.mk s.dem (s.closed.set i true) s.raised
              (pqInsert (e, (i : ℤ)) s.pq)).closed = s.closed.set i true from rfl,
            getD_set_ne _ _ _ _ _ (fun hh => hkk hh.symm)] at hk
          exact hk
      rcases hksplit with hk1 | heq
      · rcases hq k hk1 with (⟨y, hy1, hy2⟩ | ⟨p, hp1, hp2⟩) | hrowk
        · exact Or.inl (Or.inl ⟨y, hy1, hy2⟩)
        · exact Or.inl (Or.inr ⟨p, mem_pqInsert_of_mem _ p _ hp1, hp2⟩)
        · exact Or.inr (RowOK_mono nbrs n k
            (fun x hx => closedAt_set_true s.closed i x hx) hrowk)
      · exact Or.inl (Or.inr ⟨(e, (i : ℤ)), self_mem_pqInsert _ _,
          by rw [heq]; exact hkin⟩)

theorem seedAll_InvH (nbrs : List (List ℤ)) (n : ℕ) (l : List ℕ)
    (s s' : FillState) (hlen : s.closed.length = n)
    (hq : InvH nbrs n s) (h : seedAll l s = some s') : InvH nbrs n s' := by
  induction l generalizing s with
  | nil =>
    simp only [seedAll] at h
    cases Option.some.inj h
    exact hq
  | cons i rest ih =>
    simp only [seedAll] at h
    cases hs : seedOne s i with
    | none => rw [hs] at h; exact absurd h (by simp)
    | some s2 =>
      rw [hs] at h
      exact ih s2 ((seedOne_StepOk s i s2 hs).2.1.trans hlen)
        (seedOne_InvH nbrs n s i s2 hlen hq hs) h

theorem seedOne_closes (s : FillState) (i : ℕ) (s' : FillState)
    (h : seedOne s i = some s') : closedAt s' i := by
  unfold seedOne at h
  split at h
  · exact absurd h (by simp)
  · split at h
    · exact absurd h (by simp)
    · rename_i cl hcl
      have hilt : i < s.closed.length := by
        unfold npSet at hcl
        rw [resolveIdx_natCast] at hcl
        by_contra hh
        rw [if_neg hh] at hcl
        exact absurd hcl (by simp)
      have hcl2 : cl = s.closed.set i true := by
        unfold npSet at hcl
        rw [resolveIdx_natCast, if_pos hilt] at hcl
        exact (Option.some.inj hcl).symm
      subst hcl2
      cases Option.some.inj h
      unfold closedAt
      exact getD_set_self _ _ _ _ hilt

theorem seedAll_closes (l : List ℕ) (s s' : FillState)
    (h : seedAll l s = some s') : ∀ i ∈ l, closedAt s' i := by
  induction l generalizing s with
  | nil => simp
  | cons i rest ih =>
    simp only [seedAll] at h
    cases hs : seedOne s i with
    | none => rw [hs] at h; exact absurd h (by simp)
    | some s2 =>
      rw [hs] at h
      intro j hj
      rcases List.mem_cons.mp hj with rfl | hj2
      · exact (seedAll_StepOk rest s2 s' h).2.2.1 j (seedOne_closes s j s2 hs)
      · exact ih s2 h j hj2

/-- Additional run-1 facts: at the end of a completed run the queues are
empty, so every closed cell's whole neighbor row is processed (its
entries each sentinel or resolving to a closed cell), and every
open-boundary seed is closed. -/
theorem pit_fill_state_more_facts (g : FillGrid) (s : FillState)
    (hnrows : g.neighborRows.length = g.nNodes)
    (hdrows : g.diagonalRows.length = g.nNodes)
    (h : pit_fill_state (PitFiller.construct g) = some s) :
    (∀ k, closedAt s k →
      RowOK (PitFiller.construct g).neighbors g.nNodes (closedAt s) k) ∧
    (∀ i ∈ (PitFiller.construct g).openBoundary, closedAt s i) := by
  have hn := construct_neighbors_length g hnrows hdrows
  unfold pit_fill_state at h
  split at h
  · exact absurd h (by simp)
  · rename_i s1 hseed
    split at h
    · rename_i s2 hloop
      cases Option.some.inj h
      have hh0 : InvH (PitFiller.construct g).neighbors g.nNodes
          { dem := (PitFiller.construct g).demCopy,
            closed := List.replicate (PitFiller.construct g).nCopy false,
            raised := [], pq := [] } := by
        intro k hk
        unfold closedAt at hk
        rw [show (FillState.mk (PitFiller.construct g).demCopy
            (List.replicate (PitFiller.construct g).nCopy false) [] []).closed =
            List.replicate (PitFiller.construct g).nCopy false from rfl,
          getD_replicate_false] at hk
        exact absurd hk (by simp)
      have hlen1 : s1.closed.length = g.nNodes := by
        have := (seedAll_StepOk _ _ s1 hseed).2.1
        rw [this]
        simp [PitFiller.construct]
      have hh1 := seedAll_InvH _ g.nNodes _ _ s1
        (by simp [PitFiller.construct]) hh0 hseed
      have hh2 := fillLoop_InvH _ g.nNodes _ s1 _ hn hlen1 hh1 hloop
      obtain ⟨hre, hpe⟩ := fillLoop_ok_empty _ _ s1 _ hloop
      have hseeds1 := seedAll_closes _ _ s1 hseed
      have hmono := fillLoop_StepOk _ _ s1 _ hloop
      constructor
      · intro k hk
        rcases hh2 k hk with (⟨y, hy1, -⟩ | ⟨p, hp1, -⟩) | hrow
        · rw [hre] at hy1
          exact absurd hy1 (by simp)
        · rw [hpe] at hp1
          exact absurd hp1 (by simp)
        · exact hrow
      · intro i hi
        exact hmono.2.2.1 i (hseeds1 i hi)
    · exact absurd h (by simp)

/-- The run-2 invariant between loop iterations: the working elevations
are still exactly the first run's output `d1`, the closed set stays
inside the first run's visited set `R`, open-boundary nodes are closed,
queue entries are closed with keys equal to their cells' `d1` values, all
plateau-FIFO keys are equal and no larger than any priority-queue key,
the priority queue is sorted, and every closed cell is queued or fully
processed. -/
structure Inv2 (g : FillGrid) (nbrs : List (List ℤ)) (n : ℕ) (d1 : List ℚ)
    (R : ℕ → Prop) (t : FillState) : Prop where
  demEq : t.dem = d1
  closedLen : t.closed.length = n
  sub : ∀ k, closedAt t k → R k
  seeds : ∀ i, i < n → openStatus g i → closedAt t i
  raisedKey : ∀ x ∈ t.raised, ∃ k, resolveIdx n x = some k ∧ closedAt t k
  pqKey : ∀ p ∈ t.pq, ∃ k, resolveIdx n (Prod.snd p) = some k ∧ closedAt t k ∧
    Prod.fst p = d1.getD k 0
  raisedEq : ∀ x ∈ t.raised, ∀ y ∈ t.raised, ∀ kx ky, resolveIdx n x = some kx →
    resolveIdx n y = some ky → d1.getD kx 0 = d1.getD ky 0
  raisedPq : ∀ x ∈ t.raised, ∀ kx, resolveIdx n x = some kx → ∀ p ∈ t.pq,
    d1.getD kx 0 ≤ Prod.fst p
  pqSorted : t.pq.Pairwise (fun a b => a.1 ≤ b.1)
  procInv : ∀ k, closedAt t k → inQueues n t k ∨ RowOK nbrs n (closedAt t) k

/-- The run-2 invariant while the row of the popped node `k0` (popped at
level `lam`) is being processed. -/
structure Fold2 (g : FillGrid) (nbrs : List (List ℤ)) (n : ℕ) (d1 : List ℚ)
    (R : ℕ → Prop) (lam : ℚ) (k0 : ℕ) (t : FillState) : Prop where
  demEq : t.dem = d1
  closedLen : t.closed.length = n
  sub : ∀ k, closedAt t k → R k
  seeds : ∀ i, i < n → openStatus g i → closedAt t i
  raisedKey : ∀ x ∈ t.raised, ∃ k, resolveIdx n x = some k ∧ closedAt t k ∧
    d1.getD k 0 = lam
  pqKey : ∀ p ∈ t.pq, ∃ k, resolveIdx n (Prod.snd p) = some k ∧ closedAt t k ∧
    Prod.fst p = d1.getD k 0 ∧ lam ≤ Prod.fst p
  pqSorted : t.pq.Pairwise (fun a b => a.1 ≤ b.1)
  procInv : ∀ k, closedAt t k → inQueues n t k ∨ RowOK nbrs n (closedAt t) k ∨ k = k0

/-- The central bound: while node `k0`, popped at level `lam`, is being
processed in run 2, every not-yet-closed cell of `R` has `d1`-elevation
at least `lam`.  Walk the cell's run-1 chain: a closed chain node is
either queued (key at least `lam` but also at most the cell's value), or
fully processed (so the next chain node is closed), or is `k0` itself
(value exactly `lam`). -/
theorem fold2_bound (g : FillGrid) (nbrs : List (List ℤ)) (n : ℕ) (d1 : List ℚ)
    (R : ℕ → Prop) (lam : ℚ) (k0 : ℕ) (t : FillState)
    (hF1 : ∀ k, R k → Reach g nbrs n d1 R k)
    (f : Fold2 g nbrs n d1 R lam k0 t)
    (hk0lam : d1.getD k0 0 = lam) :
    ∀ k, R k → ¬ closedAt t k → lam ≤ d1.getD k 0 := by
  have H : ∀ k, Reach g nbrs n d1 R k → ¬ closedAt t k → lam ≤ d1.getD k 0 := by
    intro k hreach
    induction hreach with
    | seed v hv ho hc =>
      intro hnc
      exact absurd (f.seeds v hv ho) hnc
    | step u v hu hcv hedge hle ih =>
      intro hnc
      by_cases hcu : closedAt t u
      · rcases f.procInv u hcu with (⟨y, hy1, hy2⟩ | ⟨p, hp1, hp2⟩) | hrow | heq
        · obtain ⟨k', hk1, hk2, hk3⟩ := f.raisedKey y hy1
          rw [hy2] at hk1
          cases Option.some.inj hk1
          rw [← hk3]
          exact hle
        · obtain ⟨k', hk1, hk2, hk3, hk4⟩ := f.pqKey p hp1
          rw [hp2] at hk1
          cases Option.some.inj hk1
          rw [hk3] at hk4
          exact hk4.trans hle
        · obtain ⟨e, he1, he2, he3⟩ := hedge
          rcases hrow e he1 with he4 | ⟨k', hk1, hk2⟩
          · exact absurd he4 he2
          · rw [he3] at hk1
            cases Option.some.inj hk1
            exact absurd hk2 hnc
        · rw [heq, hk0lam] at hle
          exact hle
      · exact (ih hcu).trans hle
  intro k hk
  exact H k (hF1 k hk)

/-- One neighbor entry of run 2: the step succeeds, preserves the fold
invariant (in particular it never changes an elevation: a raise happens
only at the popped level, writing the value already stored), and leaves
the entry processed. -/
theorem procNeighbor_Fold2 (g : FillGrid) (nbrs : List (List ℤ)) (n : ℕ)
    (d1 : List ℚ) (R : ℕ → Prop) (lam : ℚ) (k0 : ℕ) (xraw : ℤ) (t : FillState)
    (e : ℤ)
    (hF1 : ∀ k, R k → Reach g nbrs n d1 R k)
    (hF2 : ∀ k, R k → RowOK nbrs n R k)
    (hd1len : d1.length = n)
    (f : Fold2 g nbrs n d1 R lam k0 t)
    (hxk0 : resolveIdx n xraw = some k0)
    (hk0R : R k0)
    (hk0lam : d1.getD k0 0 = lam)
    (herow : e ∈ nbrs.getD k0 []) :
    ∃ t', procNeighbor xraw t e = some t' ∧ Fold2 g nbrs n d1 R lam k0 t' ∧
      (e = -1 ∨ ∃ k', resolveIdx n e = some k' ∧ closedAt t' k') := by
  by_cases he : e = -1
  · refine ⟨t, ?_, f, Or.inl he⟩
    unfold procNeighbor
    rw [if_pos he]
  · rcases hF2 k0 hk0R e herow with he1 | ⟨ke, hke, hkeR⟩
    · exact absurd he1 he
    have hkeC : resolveIdx t.closed.length e = some ke := by
      rw [f.closedLen]; exact hke
    have hkelt : ke < t.closed.length := resolveIdx_lt hkeC
    have hcidx : npIdx t.closed e = some (t.closed.getD ke false) :=
      npIdx_eq_getD false hkeC
    by_cases hclke : closedAt t ke
    · refine ⟨t, ?_, f, Or.inr ⟨ke, hke, hclke⟩⟩
      unfold procNeighbor
      unfold closedAt at hclke
      rw [if_neg he, hcidx, hclke]
    · have hbound : lam ≤ d1.getD ke 0 :=
        fold2_bound g nbrs n d1 R lam k0 t hF1 f hk0lam ke hkeR hclke
      have hgetf : t.closed.getD ke false = false := by
        unfold closedAt at hclke
        cases hval : t.closed.getD ke false
        · rfl
        · exact absurd hval hclke
      have hkeD : resolveIdx t.dem.length e = some ke := by
        rw [f.demEq, hd1len]; exact hke
      have hkeDlt : ke < t.dem.length := resolveIdx_lt hkeD
      have hdidx : npIdx t.dem e = some (t.dem.getD ke 0) := npIdx_eq_getD 0 hkeD
      have hk0D : resolveIdx t.dem.length xraw = some k0 := by
        rw [f.demEq, hd1len]; exact hxk0
      have hxidx : npIdx t.dem xraw = some (t.dem.getD k0 0) := npIdx_eq_getD 0 hk0D
      have hdemval : t.dem.getD ke 0 = d1.getD ke 0 := by rw [f.demEq]
      have hduval : t.dem.getD k0 0 = lam := by rw [f.demEq]; exact hk0lam
      have hclmono : ∀ k, closedAt t k → (t.closed.set ke true).getD k false = true :=
        fun k hk => closedAt_set_true t.closed ke k hk
      have hclnew : (t.closed.set ke true).getD ke false = true :=
        getD_set_self _ _ _ _ hkelt
      have hclsplit : ∀ k, (t.closed.set ke true).getD k false = true →
          closedAt t k ∨ k = ke := by
        intro k hk
        by_cases hkk : k = ke
        · exact Or.inr hkk
        · left
          unfold closedAt
          rw [getD_set_ne _ _ _ _ _ (fun hh => hkk hh.symm)] at hk
          exact hk
      by_cases hle : t.dem.getD ke 0 ≤ t.dem.getD k0 0
      · -- raise branch: the written value is the one already there
        have hveq : d1.getD ke 0 = lam := by
          apply le_antisymm _ hbound
          rw [← hdemval, ← hduval]
          exact hle
        have hsetdem : t.dem.set ke (t.dem.getD k0 0) = t.dem := by
          apply set_getD_self _ _ _ 0 _ hkeDlt
          rw [hdemval, hduval, hveq]
        have heqn : procNeighbor xraw t e = some
            (FillState.mk (t.dem.set ke (t.dem.getD k0 0)) (t.closed.set ke true)
              (t.raised ++ [e]) t.pq) := by
          unfold procNeighbor
          rw [if_neg he, hcidx, hgetf, npSet_some_of_resolve true hkeC, hdidx, hxidx]
          dsimp only
          rw [if_pos hle, npSet_some_of_resolve _ hkeD]
        refine ⟨_, heqn, ?_, Or.inr ⟨ke, hke, hclnew⟩⟩
        refine ⟨?_, by simpa using f.closedLen, ?_, ?_, ?_, ?_, ?_, ?_⟩
        · show t.dem.set ke (t.dem.getD k0 0) = d1
          rw [hsetdem, f.demEq]
        · intro k hk
          rcases hclsplit k hk with hk1 | rfl
          · exact f.sub k hk1
          · exact hkeR
        · intro i hi ho
          exact hclmono i (f.seeds i hi ho)
        · intro x hx
          rcases List.mem_append.mp hx with hx1 | hx1
          · obtain ⟨k, hk1, hk2, hk3⟩ := f.raisedKey x hx1
            exact ⟨k, hk1, hclmono k hk2, hk3⟩
          · have hxe : x = e := by simpa using hx1
            subst hxe
            exact ⟨ke, hke, hclnew, hveq⟩
        · intro p hp
          obtain ⟨k, hk1, hk2, hk3, hk4⟩ := f.pqKey p hp
          exact ⟨k, hk1, hclmono k hk2, hk3, hk4⟩
        · exact f.pqSorted
        · intro k hk
          rcases hclsplit k hk with hk1 | rfl
          · rcases f.procInv k hk1 with (⟨y, hy1, hy2⟩ | ⟨p, hp1, hp2⟩) | hrow | heq2
            · exact Or.inl (Or.inl ⟨y, List.mem_append.mpr (Or.inl hy1), hy2⟩)
            · exact Or.inl (Or.inr ⟨p, hp1, hp2⟩)
            · exact Or.inr (Or.inl (RowOK_mono nbrs n k
                (fun x hx => hclmono x hx) hrow))
            · exact Or.inr (Or.inr heq2)
          · exact Or.inl (Or.inl ⟨e, List.mem_append.mpr (Or.inr (by simp)), hke⟩)
      · -- push branch: the neighbor is strictly higher than the level
        have heqn : procNeighbor xraw t e = some
            (FillState.mk t.dem (t.closed.set ke true) t.raised
              (pqInsert (t.dem.getD ke 0, e) t.pq)) := by
          unfold procNeighbor
          rw [if_neg he, hcidx, hgetf, npSet_some_of_resolve true hkeC, hdidx, hxidx]
          dsimp only
          rw [if_neg hle]
        refine ⟨_, heqn, ?_, Or.inr ⟨ke, hke, hclnew⟩⟩
        refine ⟨f.demEq, by simpa using f.closedLen, ?_, ?_, ?_, ?_, ?_, ?_⟩
        · intro k hk
          rcases hclsplit k hk with hk1 | rfl
          · exact f.sub k hk1
          · exact hkeR
        · intro i hi ho
          exact hclmono i (f.seeds i hi ho)
        · intro x hx
          obtain ⟨k, hk1, hk2, hk3⟩ := f.raisedKey x hx
          exact ⟨k, hk1, hclmono k hk2, hk3⟩
        · intro p hp
          rcases mem_pqInsert _ p _ hp with heqp | hp1
          · rw [heqp]
            exact ⟨ke, hke, hclnew, hdemval, by rw [hdemval]; exact hbound⟩
          · obtain ⟨k, hk1, hk2, hk3, hk4⟩ := f.pqKey p hp1
            exact ⟨k, hk1, hclmono k hk2, hk3, hk4⟩
        · exact pqInsert_pairwise _ _ f.pqSorted
        · intro k hk
          rcases hclsplit k hk with hk1 | rfl
          · rcases f.procInv k hk1 with (⟨y, hy1, hy2⟩ | ⟨p, hp1, hp2⟩) | hrow | heq2
            · exact Or.inl (Or.inl ⟨y, hy1, hy2⟩)
            · exact Or.inl (Or.inr ⟨p, mem_pqInsert_of_mem _ p _ hp1, hp2⟩)
            · exact Or.inr (Or.inl (RowOK_mono nbrs n k
                (fun x hx => hclmono x hx) hrow))
            · exact Or.inr (Or.inr heq2)
          · exact Or.inl (Or.inr ⟨(t.dem.getD k 0, e), self_mem_pqInsert _ _, hke⟩)

theorem procRow_Fold2 (g : FillGrid) (nbrs : List (List ℤ)) (n : ℕ)
    (d1 : List ℚ) (R : ℕ → Prop) (lam : ℚ) (k0 : ℕ) (xraw : ℤ) (row : List ℤ)
    (t : FillState)
    (hF1 : ∀ k, R k → Reach g nbrs n d1 R k)
    (hF2 : ∀ k, R k → RowOK nbrs n R k)
    (hd1len : d1.length = n)
    (f : Fold2 g nbrs n d1 R lam k0 t)
    (hxk0 : resolveIdx n xraw = some k0)
    (hk0R : R k0)
    (hk0lam : d1.getD k0 0 = lam)
    (hsub : ∀ e ∈ row, e ∈ nbrs.getD k0 []) :
    ∃ t', procRow xraw row t = some t' ∧ Fold2 g nbrs n d1 R lam k0 t' ∧
      ∀ e ∈ row, e = -1 ∨ ∃ k', resolveIdx n e = some k' ∧ closedAt t' k' := by
  induction row generalizing t with
  | nil =>
    refine ⟨t, ?_, f, by simp⟩
    simp only [procRow]
  | cons e rest ih =>
    obtain ⟨t2, heq2, f2, hproc2⟩ := procNeighbor_Fold2 g nbrs n d1 R lam k0 xraw
      t e hF1 hF2 hd1len f hxk0 hk0R hk0lam (hsub e (List.mem_cons.mpr (Or.inl rfl)))
    obtain ⟨t', heq', f', hproc'⟩ := ih t2 f2
      (fun e2 he2 => hsub e2 (List.mem_cons.mpr (Or.inr he2)))
    refine ⟨t', ?_, f', ?_⟩
    · simp only [procRow, heq2]
      exact heq'
    · intro e2 he2
      rcases List.mem_cons.mp he2 with rfl | he3
      · rcases hproc2 with h1 | ⟨k', hk1, hk2⟩
        · exact Or.inl h1
        · refine Or.inr ⟨k', hk1, ?_⟩
          have hmono := (procRow_StepOk xraw rest t2 t' heq').2.2.1
          exact hmono k' hk2
      · exact hproc' e2 he3

theorem fillStep_run2 (g : FillGrid) (nbrs : List (List ℤ)) (n : ℕ)
    (d1 : List ℚ) (R : ℕ → Prop) (t : FillState)
    (hF1 : ∀ k, R k → Reach g nbrs n d1 R k)
    (hF2 : ∀ k, R k → RowOK nbrs n R k)
    (hd1len : d1.length = n) (hn : nbrs.length = n)
    (inv : Inv2 g nbrs n d1 R t)
    (hne : ¬ (t.raised = [] ∧ t.pq = [])) :
    ∃ t', fillStep nbrs t = some t' ∧ Inv2 g nbrs n d1 R t' := by
  cases hraised : t.raised with
  | cons x rest =>
    obtain ⟨k0, hxk0, hk0cl⟩ := inv.raisedKey x (by rw [hraised]; simp)
    have hk0R : R k0 := inv.sub k0 hk0cl
    have hk0lt : k0 < n := by
      have := resolveIdx_lt hxk0
      omega
    have hrowidx : npIdx nbrs x = some (nbrs.getD k0 []) := by
      apply npIdx_eq_getD
      rw [hn]
      exact hxk0
    have f1 : Fold2 g nbrs n d1 R (d1.getD k0 0) k0
        (FillState.mk t.dem t.closed rest t.pq) := by
      refine ⟨inv.demEq, inv.closedLen, inv.sub, inv.seeds, ?_, ?_, inv.pqSorted, ?_⟩
      · intro y hy
        obtain ⟨ky, hky1, hky2⟩ := inv.raisedKey y
          (by rw [hraised]; exact List.mem_cons.mpr (Or.inr hy))
        refine ⟨ky, hky1, hky2, ?_⟩
        exact inv.raisedEq y
          (by rw [hraised]; exact List.mem_cons.mpr (Or.inr hy))
          x (by rw [hraised]; simp) ky k0 hky1 hxk0
      · intro p hp
        obtain ⟨kp, hkp1, hkp2, hkp3⟩ := inv.pqKey p hp
        exact ⟨kp, hkp1, hkp2, hkp3,
          inv.raisedPq x (by rw [hraised]; simp) k0 hxk0 p hp⟩
      · intro k hk
        rcases inv.procInv k hk with (⟨y, hy1, hy2⟩ | ⟨p, hp1, hp2⟩) | hrow
        · rw [hraised] at hy1
          rcases List.mem_cons.mp hy1 with rfl | hy3
          · rw [hxk0] at hy2
            exact Or.inr (Or.inr (Option.some.inj hy2).symm)
          · exact Or.inl (Or.inl ⟨y, hy3, hy2⟩)
        · exact Or.inl (Or.inr ⟨p, hp1, hp2⟩)
        · exact Or.inr (Or.inl hrow)
    obtain ⟨t', heq', f', hproc'⟩ := procRow_Fold2 g nbrs n d1 R (d1.getD k0 0) k0
      x (nbrs.getD k0 []) _ hF1 hF2 hd1len f1 hxk0 hk0R rfl (fun e he => he)
    refine ⟨t', ?_, ?_⟩
    · unfold fillStep
      rw [hraised]
      dsimp only
      rw [hrowidx]
      exact heq'
    · refine ⟨f'.demEq, f'.closedLen, f'.sub, f'.seeds, ?_, ?_, ?_, ?_,
        f'.pqSorted, ?_⟩
      · intro y hy
        obtain ⟨ky, h1, h2, -⟩ := f'.raisedKey y hy
        exact ⟨ky, h1, h2⟩
      · intro p hp
        obtain ⟨kp, h1, h2, h3, -⟩ := f'.pqKey p hp
        exact ⟨kp, h1, h2, h3⟩
      · intro y hy z hz ky kz hky hkz
        obtain ⟨ky', h1, -, h3⟩ := f'.raisedKey y hy
        obtain ⟨kz', h4, -, h6⟩ := f'.raisedKey z hz
        rw [hky] at h1
        rw [hkz] at h4
        cases Option.some.inj h1
        cases Option.some.inj h4
        rw [h3, h6]
      · intro y hy ky hky p hp
        obtain ⟨ky', h1, -, h3⟩ := f'.raisedKey y hy
        rw [hky] at h1
        cases Option.some.inj h1
        obtain ⟨kp, -, -, -, h5⟩ := f'.pqKey p hp
        rw [h3]
        exact h5
      · intro k hk
        rcases f'.procInv k hk with hq | hrow | heqk
        · exact Or.inl hq
        · exact Or.inr hrow
        · right
          subst heqk
          intro e he
          exact hproc' e he
  | nil =>
    cases hpq : t.pq with
    | nil => exact absurd ⟨hraised, hpq⟩ hne
    | cons p tl =>
      obtain ⟨q, x⟩ := p
      obtain ⟨k0, hxk0, hk0cl, hqval⟩ := inv.pqKey (q, x) (by rw [hpq]; simp)
      have hk0R : R k0 := inv.sub k0 hk0cl
      have hrowidx : npIdx nbrs x = some (nbrs.getD k0 []) := by
        apply npIdx_eq_getD
        rw [hn]
        exact hxk0
      have hheadle : ∀ p2 ∈ tl, q ≤ Prod.fst p2 := by
        have hpw := inv.pqSorted
        rw [hpq, List.pairwise_cons] at hpw
        exact fun p2 hp2 => hpw.1 p2 hp2
      have f1 : Fold2 g nbrs n d1 R (d1.getD k0 0) k0
          (FillState.mk t.dem t.closed [] tl) := by
      -- raised is empty here
        refine ⟨inv.demEq, inv.closedLen, inv.sub, inv.seeds, ?_, ?_, ?_, ?_⟩
        · intro y hy
          exact absurd hy (by simp)
        · intro p2 hp2
          obtain ⟨kp, hkp1, hkp2, hkp3⟩ := inv.pqKey p2
            (by rw [hpq]; exact List.mem_cons.mpr (Or.inr hp2))
          refine ⟨kp, hkp1, hkp2, hkp3, ?_⟩
          rw [← hqval]
          exact hheadle p2 hp2
        · have hpw := inv.pqSorted
          rw [hpq, List.pairwise_cons] at hpw
          exact hpw.2
        · intro k hk
          rcases inv.procInv k hk with (⟨y, hy1, hy2⟩ | ⟨p2, hp1, hp2⟩) | hrow
          · rw [hraised] at hy1
            exact absurd hy1 (by simp)
          · rw [hpq] at hp1
            rcases List.mem_cons.mp hp1 with rfl | hp3
            · rw [hxk0] at hp2
              exact Or.inr (Or.inr (Option.some.inj hp2).symm)
            · exact Or.inl (Or.inr ⟨p2, hp3, hp2⟩)
          · exact Or.inr (Or.inl hrow)
      obtain ⟨t', heq', f', hproc'⟩ := procRow_Fold2 g nbrs n d1 R (d1.getD k0 0) k0
        x (nbrs.getD k0 []) _ hF1 hF2 hd1len f1 hxk0 hk0R rfl (fun e he => he)
      refine ⟨t', ?_, ?_⟩
      · unfold fillStep
        rw [hraised, hpq]
        dsimp only
        rw [hrowidx]
        exact heq'
      · refine ⟨f'.demEq, f'.closedLen, f'.sub, f'.seeds, ?_, ?_, ?_, ?_,
          f'.pqSorted, ?_⟩
        · intro y hy
          obtain ⟨ky, h1, h2, -⟩ := f'.raisedKey y hy
          exact ⟨ky, h1, h2⟩
        · intro p2 hp
          obtain ⟨kp, h1, h2, h3, -⟩ := f'.pqKey p2 hp
          exact ⟨kp, h1, h2, h3⟩
        · intro y hy z hz ky kz hky hkz
          obtain ⟨ky', h1, -, h3⟩ := f'.raisedKey y hy
          obtain ⟨kz', h4, -, h6⟩ := f'.raisedKey z hz
          rw [hky] at h1
          rw [hkz] at h4
          cases Option.some.inj h1
          cases Option.some.inj h4
          rw [h3, h6]
        · intro y hy ky hky p2 hp
          obtain ⟨ky', h1, -, h3⟩ := f'.raisedKey y hy
          rw [hky] at h1
          cases Option.some.inj h1
          obtain ⟨kp, -, -, -, h5⟩ := f'.pqKey p2 hp
          rw [h3]
          exact h5
        · intro k hk
          rcases f'.procInv k hk with hq2 | hrow | heqk
          · exact Or.inl hq2
          · exact Or.inr hrow
          · right
            subst heqk
            intro e he
            exact hproc' e he

/-- Run 2's main loop completes without touching the elevations, given
enough fuel. -/
theorem fillLoop_run2 (g : FillGrid) (nbrs : List (List ℤ)) (n : ℕ)
    (d1 : List ℚ) (R : ℕ → Prop) (fuel : ℕ) (t : FillState)
    (hF1 : ∀ k, R k → Reach g nbrs n d1 R k)
    (hF2 : ∀ k, R k → RowOK nbrs n R k)
    (hd1len : d1.length = n) (hn : nbrs.length = n)
    (inv : Inv2 g nbrs n d1 R t)
    (hfuel : fillMeasure t ≤ fuel) :
    ∃ t', fillLoop nbrs fuel t = .ok t' ∧ t'.dem = d1 := by
  induction fuel generalizing t with
  | zero =>
    have h1 : t.raised = [] ∧ t.pq = [] := by
      unfold fillMeasure at hfuel
      constructor
      · exact List.length_eq_zero.mp (by omega)
      · exact List.length_eq_zero.mp (by omega)
    refine ⟨t, ?_, inv.demEq⟩
    simp only [fillLoop, if_pos h1]
  | succ m ih =>
    by_cases hemp : t.raised = [] ∧ t.pq = []
    · refine ⟨t, ?_, inv.demEq⟩
      simp only [fillLoop, if_pos hemp]
    · obtain ⟨t2, hstep, inv2⟩ := fillStep_run2 g nbrs n d1 R t hF1 hF2 hd1len
        hn inv hemp
      have hm := fillStep_measure nbrs t t2 hemp hstep
      obtain ⟨t', h1, h2⟩ := ih t2 inv2 (by omega)
      refine ⟨t', ?_, h2⟩
      simp only [fillLoop, if_neg hemp, hstep]
      exact h1

/-- The run-2 invariant during the seeding loop: like `Inv2` but the
plateau FIFO is still empty and the open boundaries are only partially
closed so far. -/
structure Seed2 (g : FillGrid) (nbrs : List (List ℤ)) (n : ℕ) (d1 : List ℚ)
    (R : ℕ → Prop) (t : FillState) : Prop where
  demEq : t.dem = d1
  closedLen : t.closed.length = n
  sub : ∀ k, closedAt t k → R k
  raisedNil : t.raised = []
  pqKey : ∀ p ∈ t.pq, ∃ k, resolveIdx n (Prod.snd p) = some k ∧ closedAt t k ∧
    Prod.fst p = d1.getD k 0
  pqSorted : t.pq.Pairwise (fun a b => a.1 ≤ b.1)
  procInv : ∀ k, closedAt t k → inQueues n t k ∨ RowOK nbrs n (closedAt t) k

theorem seedOne_run2 (g : FillGrid) (nbrs : List (List ℤ)) (n : ℕ) (d1 : List ℚ)
    (R : ℕ → Prop) (t : FillState) (i : ℕ)
    (hi : i < n) (hiR : R i)
    (sd : Seed2 g nbrs n d1 R t) (hd1len : d1.length = n) :
    ∃ t', seedOne t i = some t' ∧ Seed2 g nbrs n d1 R t' ∧
      (∀ k, closedAt t k → closedAt t' k) := by
  have hdlt : i < t.dem.length := by
    rw [sd.demEq, hd1len]
    exact hi
  have hclt : i < t.closed.length := by
    rw [sd.closedLen]
    exact hi
  have hget : t.dem.get? i = some (t.dem.getD i 0) := by
    rw [List.get?_eq_getElem?, List.getElem?_eq_getElem hdlt,
      List.getD_eq_getElem _ _ hdlt]
  have hres : resolveIdx t.closed.length (i : ℤ) = some i := by
    rw [resolveIdx_natCast, if_pos hclt]
  have hresn : resolveIdx n (i : ℤ) = some i := by
    rw [resolveIdx_natCast, if_pos hi]
  have hmono : ∀ k, closedAt t k →
      (t.closed.set i true).getD k false = true := by
    intro k hk
    exact closedAt_set_true t.closed i k hk
  refine ⟨{ t with
      pq := pqInsert (t.dem.getD i 0, (i : ℤ)) t.pq
      closed := t.closed.set i true }, ?_, ?_, hmono⟩
  · simp only [seedOne, hget, npSet_some_of_resolve true hres]
  · refine ⟨sd.demEq, ?_, ?_, sd.raisedNil, ?_, ?_, ?_⟩
    · rw [List.length_set]
      exact sd.closedLen
    · intro k hk
      by_cases hki : k = i
      · subst hki
        exact hiR
      · unfold closedAt at hk
        rw [getD_set_ne _ _ _ _ _ (fun hh => hki hh.symm)] at hk
        exact sd.sub k hk
    · intro p hp
      rcases mem_pqInsert _ p _ hp with rfl | hp2
      · refine ⟨i, hresn, ?_, ?_⟩
        · unfold closedAt
          exact getD_set_self _ _ _ _ hclt
        · rw [sd.demEq]
      · obtain ⟨k, h1, h2, h3⟩ := sd.pqKey p hp2
        exact ⟨k, h1, hmono k h2, h3⟩
    · exact pqInsert_pairwise _ _ sd.pqSorted
    · intro k hk
      by_cases hki : k = i
      · subst hki
        exact Or.inl (Or.inr ⟨(t.dem.getD k 0, (k : ℤ)),
          self_mem_pqInsert _ _, hresn⟩)
      · unfold closedAt at hk
        rw [getD_set_ne _ _ _ _ _ (fun hh => hki hh.symm)] at hk
        rcases sd.procInv k hk with (⟨y, hy1, hy2⟩ | ⟨p, hp1, hp2⟩) | hrow
        · exact Or.inl (Or.inl ⟨y, hy1, hy2⟩)
        · exact Or.inl (Or.inr ⟨p, mem_pqInsert_of_mem _ p _ hp1, hp2⟩)
        · exact Or.inr (RowOK_mono nbrs n k hmono hrow)

theorem seedAll_run2 (g : FillGrid) (nbrs : List (List ℤ)) (n : ℕ) (d1 : List ℚ)
    (R : ℕ → Prop) (l : List ℕ) (t : FillState)
    (hl : ∀ i ∈ l, i < n ∧ R i)
    (sd : Seed2 g nbrs n d1 R t) (hd1len : d1.length = n) :
    ∃ t', seedAll l t = some t' ∧ Seed2 g nbrs n d1 R t' := by
  induction l generalizing t with
  | nil => exact ⟨t, rfl, sd⟩
  | cons i rest ih =>
    obtain ⟨hi, hiR⟩ := hl i (List.mem_cons.mpr (Or.inl rfl))
    obtain ⟨t2, heq2, sd2, -⟩ := seedOne_run2 g nbrs n d1 R t i hi hiR sd hd1len
    obtain ⟨t', heq', sd'⟩ := ih t2 (fun j hj =>
      hl j (List.mem_cons.mpr (Or.inr hj))) sd2
    refine ⟨t', ?_, sd'⟩
    simp only [seedAll, heq2]
    exact heq'

/-- C8 (confirmed).  For a well-formed grid (per-node arrays of length
`number_of_nodes`), `pit_fill` is idempotent: running the filler again on
the grid a completed run returned (same node count, adjacency and
boundary classification — only the elevation field was rewritten)
completes and returns that grid unchanged.  The second run's queues only
ever hold cells at their (already filled) first-run elevations, so every
raise rewrites a value that is already there. -/
theorem pit_fill_idempotent (g out : FillGrid)
    (hdem : g.dem.length = g.nNodes)
    (hstatus : g.status.length = g.nNodes)
    (hnrows : g.neighborRows.length = g.nNodes)
    (hdrows : g.diagonalRows.length = g.nNodes)
    (h : pit_fill (PitFiller.construct g) = some out) :
    pit_fill (PitFiller.construct out) = some out := by
  unfold pit_fill at h
  cases hst : pit_fill_state (PitFiller.construct g) with
  | none =>
    rw [hst] at h
    exact absurd h (by simp)
  | some s =>
    rw [hst] at h
    simp only [Option.map_some'] at h
    have hout2 : out = { g with dem := s.dem } := (Option.some.inj h).symm
    have inv1 := pit_fill_state_FillInv g s hdem hnrows hdrows hst
    have more := pit_fill_state_more_facts g s hnrows hdrows hst
    have hn := construct_neighbors_length g hnrows hdrows
    have hd1len := inv1.demLen
    have hmem : ∀ i, i < g.nNodes → openStatus g i →
        i ∈ (PitFiller.construct { g with dem := s.dem }).openBoundary := by
      intro i hi ho
      unfold PitFiller.construct
      dsimp only
      rw [List.mem_filter]
      refine ⟨?_, ?_⟩
      · rw [List.mem_range]
        omega
      · exact decide_eq_true ho
    have hl2 : ∀ i ∈ (PitFiller.construct { g with dem := s.dem }).openBoundary,
        i < g.nNodes ∧ closedAt s i := by
      intro i hi
      have hi2 : i ∈ (PitFiller.construct g).openBoundary := hi
      refine ⟨?_, more.2 i hi2⟩
      unfold PitFiller.construct at hi2
      rw [List.mem_filter] at hi2
      have h1 := hi2.1
      rw [List.mem_range] at h1
      omega
    have sd0 : Seed2 g (PitFiller.construct g).neighbors g.nNodes s.dem
        (closedAt s)
        (FillState.mk s.dem (List.replicate g.nNodes false) [] []) := by
      refine ⟨rfl, by simp, ?_, rfl, ?_, List.Pairwise.nil, ?_⟩
      · intro k hk
        unfold closedAt at hk
        rw [show (FillState.mk s.dem (List.replicate g.nNodes false) [] []).closed
            = List.replicate g.nNodes false from rfl, getD_replicate_false] at hk
        exact absurd hk (by simp)
      · intro p hp
        exact absurd hp (by simp)
      · intro k hk
        unfold closedAt at hk
        rw [show (FillState.mk s.dem (List.replicate g.nNodes false) [] []).closed
            = List.replicate g.nNodes false from rfl, getD_replicate_false] at hk
        exact absurd hk (by simp)
    obtain ⟨t1, hseed, sd1⟩ := seedAll_run2 g (PitFiller.construct g).neighbors
      g.nNodes s.dem (closedAt s)
      (PitFiller.construct { g with dem := s.dem }).openBoundary
      (FillState.mk s.dem (List.replicate g.nNodes false) [] []) hl2 sd0 hd1len
    have hseeds2 : ∀ i, i < g.nNodes → openStatus g i → closedAt t1 i :=
      fun i hi ho => seedAll_closes _ _ t1 hseed i (hmem i hi ho)
    have inv2 : Inv2 g (PitFiller.construct g).neighbors g.nNodes s.dem
        (closedAt s) t1 := by
      refine ⟨sd1.demEq, sd1.closedLen, sd1.sub, hseeds2, ?_, sd1.pqKey, ?_, ?_,
        sd1.pqSorted, sd1.procInv⟩
      · intro x hx
        rw [sd1.raisedNil] at hx
        exact absurd hx (by simp)
      · intro x hx
        rw [sd1.raisedNil] at hx
        exact absurd hx (by simp)
      · intro x hx
        rw [sd1.raisedNil] at hx
        exact absurd hx (by simp)
    obtain ⟨t', hloop, hdem'⟩ := fillLoop_run2 g (PitFiller.construct g).neighbors
      g.nNodes s.dem (closedAt s) (fillMeasure t1) t1 inv1.reach more.1
      hd1len hn inv2 (le_refl _)
    have hmain : pit_fill_state (PitFiller.construct { g with dem := s.dem })
        = some t' := by
      unfold pit_fill_state
      rw [show seedAll (PitFiller.construct { g with dem := s.dem }).openBoundary
          { dem := (PitFiller.construct { g with dem := s.dem }).demCopy,
            closed := List.replicate
              (PitFiller.construct { g with dem := s.dem }).nCopy false,
            raised := [], pq := [] } = some t1 from hseed]
      dsimp only
      rw [show fillLoop (PitFiller.construct { g with dem := s.dem }).neighbors
          (fillMeasure t1) t1 = FillRes.ok t' from hloop]
    rw [hout2]
    unfold pit_fill
    rw [hmain]
    simp only [Option.map_some']
    rw [hdem']
    rfl

/-- C8 witness grid (pre-fill surface `[0, 5, 3]`, already filled to
`[0, 5, 5]`). -/
def gC8 : FillGrid :=
  { nNodes := 3
    dem := [0, 5, 3]
    status := [1, 0, 0]
    neighborRows := [[1, -1], [0, 2], [1, -1]]
    diagonalRows := [[], [], []] }

/-- C8, witness: re-running `pit_fill` on the filled output of the
concrete run on `gC8` returns it unchanged. -/
theorem pit_fill_idempotent_witness :
    pit_fill (PitFiller.construct (FillGrid.mk 3 [0, 5, 5] [1, 0, 0]
        [[1, -1], [0, 2], [1, -1]] [[], [], []])) =
      some (FillGrid.mk 3 [0, 5, 5] [1, 0, 0]
        [[1, -1], [0, 2], [1, -1]] [[], [], []]) :=
  pit_fill_idempotent gC8 _ (by decide) (by decide) (by decide) (by decide)
    (by decide)

end Landlab
